import Mathlib

/-!
# hdcv: conversion of numbers between bases (`include/hdcv.hpp`)

A shallow embedding of the single-header library `hdcv` and theorems about it.

Modelling conventions.

* A C++ `char` is a Lean `Char`; only its code (`Char.toNat`) is ever looked at, which is
  what the integer promotions of the source do.  An `int` converted back to `char` is
  reduced modulo `256`.
* A `std::string` is a `List Char`.
* A `long` is an `Int` in `[LONG_MIN, LONG_MAX]` (64 bits); a sum, product, difference or
  negation computed in `long` goes through `wrapLong` (two's complement wrap-around, which
  is how the specification describes overflow); `/` and `%` are the truncating `Int.tdiv`
  and `Int.tmod`.
* An `unsigned short` is a `Nat`; a value stored in one is reduced modulo `65536`.
* A function that can throw returns `Except Exception _`.
-/

namespace hdcv

/-! ## Data model -/

/-- The exceptions of the library and of `std::stoi`, which the driver calls.
`invalid_argument` is `std::invalid_argument` with its `what()` text, `out_of_range` is
`std::out_of_range`.  `fuel_exhausted` is not a C++ exception: it marks a run of the model of
a `do ... while` loop that used up its iteration budget, and `toStringLoop_terminates` shows
that it never arises. -/
inductive Exception where
  | invalid_argument (what : String)
  | out_of_range (what : String)
  | fuel_exhausted
  deriving DecidableEq, Repr

deriving instance DecidableEq for Except

/-- Smallest value of a 64-bit `long`. -/
def LONG_MIN : Int := -9223372036854775808

/-- Largest value of a 64-bit `long`. -/
def LONG_MAX : Int := 9223372036854775807

/-- The values a `long` can hold. -/
def isLong (v : Int) : Prop := LONG_MIN ≤ v ∧ v ≤ LONG_MAX

instance (v : Int) : Decidable (isLong v) := by unfold isLong; infer_instance

/-- Two's complement wrap-around of an integer result into a 64-bit `long`. -/
def wrapLong (x : Int) : Int := (x + 9223372036854775808) % 18446744073709551616 - 9223372036854775808

/-! ## Character classification (`hdcv.hpp` lines 25-133) -/

/-- Source `bool isNumber(const char c)`: `c >= '0' && c <= '9'`. -/
def isNumber (c : Char) : Bool :=
  decide (c.toNat ≥ ('0').toNat) && decide (c.toNat ≤ ('9').toNat)

/-- The loop of `isNumber(const std::string&)` over the characters from the start index on. -/
def isNumberStringLoop : List Char → Bool
  | [] => true
  | c :: cs => if !isNumber c then false else isNumberStringLoop cs

/-- Source `bool isNumber(const std::string &str)`. -/
def isNumberString (str : List Char) : Bool :=
  if str.length = 0 then false
  else isNumberStringLoop (str.drop (if str.head? = some '-' then 1 else 0))

/-- Source `bool isAlphabet(const char c)`. -/
def isAlphabet (c : Char) : Bool :=
  if (decide (c.toNat ≥ ('A').toNat) && decide (c.toNat ≤ ('Z').toNat))
      || (decide (c.toNat ≥ ('a').toNat) && decide (c.toNat ≤ ('z').toNat)) then true
  else false

/-- The text thrown by both character case conversions. -/
def notALetter : Exception :=
  Exception.invalid_argument "Conversion failed: character is not a letter."

/-- Source `char toLower(const char c)`. -/
def toLower (c : Char) : Except Exception Char :=
  if c.toNat ≥ ('A').toNat ∧ c.toNat ≤ ('Z').toNat then
    .ok (Char.ofNat ((c.toNat + (('a').toNat - ('A').toNat)) % 256))
  else if c.toNat ≥ ('a').toNat ∧ c.toNat ≤ ('z').toNat then
    .ok c
  else .error notALetter

/-- Source `char toUpper(const char c)`. -/
def toUpper (c : Char) : Except Exception Char :=
  if c.toNat ≥ ('A').toNat ∧ c.toNat ≤ ('Z').toNat then
    .ok c
  else if c.toNat ≥ ('a').toNat ∧ c.toNat ≤ ('z').toNat then
    .ok (Char.ofNat ((c.toNat - (('a').toNat - ('A').toNat)) % 256))
  else .error notALetter

/-- Source `std::string toLower(const std::string &str)`: the loop pushes one character per
character of `str`; an exception of the character conversion would propagate. -/
def toLowerString : List Char → Except Exception (List Char)
  | [] => .ok []
  | c :: cs =>
    if isAlphabet c then
      match toLower c with
      | .error e => .error e
      | .ok l =>
        match toLowerString cs with
        | .error e => .error e
        | .ok res => .ok (l :: res)
    else
      match toLowerString cs with
      | .error e => .error e
      | .ok res => .ok (c :: res)

/-- Source `std::string toUpper(const std::string &str)`. -/
def toUpperString : List Char → Except Exception (List Char)
  | [] => .ok []
  | c :: cs =>
    if isAlphabet c then
      match toUpper c with
      | .error e => .error e
      | .ok u =>
        match toUpperString cs with
        | .error e => .error e
        | .ok res => .ok (u :: res)
    else
      match toUpperString cs with
      | .error e => .error e
      | .ok res => .ok (c :: res)

/-! ## Parsing (`hdcv.hpp` lines 143-175) -/

/-- The text thrown by `fromString` for a character that is no digit of the base. -/
def notBase (base : Nat) : Exception :=
  Exception.invalid_argument ("Conversion failed: number is not base-" ++ Nat.repr base ++ ".")

/-- The `for` loop of `fromString`: `i` is the index of the head of the remaining text,
`res` and `neg` are the local variables.  It yields the final `res` and `neg`. -/
def fromStringLoop (base : Nat) : List Char → Nat → Int → Bool → Except Exception (Int × Bool)
  | [], _, res, neg => .ok (res, neg)
  | c :: cs, i, res, neg =>
    let neg1 : Bool := if i = 0 then decide (c = '-') else neg
    if i = 0 ∧ neg1 = true then fromStringLoop base cs (i + 1) res neg1
    else if isNumber c then
      if (c.toNat : Int) - (('0').toNat : Int) ≥ (base : Int) then .error (notBase base)
      else
        fromStringLoop base cs (i + 1)
          (wrapLong (wrapLong (wrapLong (res * (base : Int)) + (c.toNat : Int))
            - (('0').toNat : Int))) neg1
    else if base > 10 then
      match toLower c with
      | .error e => .error e
      | .ok l =>
        let val : Int := ((l.toNat : Int) - (('a').toNat : Int) + 10) % 65536
        if val ≥ (base : Int) then .error (notBase base)
        else fromStringLoop base cs (i + 1) (wrapLong (wrapLong (res * (base : Int)) + val)) neg1
    else .error (notBase base)

/-- Source `long fromString(const std::string &num, unsigned short base)`.  The local `neg` is
uninitialised before the loop; the loop assigns it at index `0`, which exists because the
text is not empty. -/
def fromString (num : List Char) (base : Nat) : Except Exception Int :=
  if num.length = 0 then .error (Exception.invalid_argument "Conversion failed: empty input.")
  else
    match fromStringLoop base num 0 0 false with
    | .error e => .error e
    | .ok (res, neg) => .ok (if neg then wrapLong (-res) else res)

/-! ## Formatting (`hdcv.hpp` lines 185-204) -/

/-- The `do ... while (num > 0)` loop of `toString`, with an iteration budget: `none` when
the budget is used up before the loop condition fails. -/
def toStringLoop (base : Nat) : Nat → Int → List Char → Option (List Char)
  | 0, _, _ => none
  | fuel + 1, num, res =>
    let rem : Int := (Int.tmod num (base : Int)) % 65536
    let num1 : Int := Int.tdiv num (base : Int)
    let res1 : List Char :=
      if rem < 10 then Char.ofNat ((((('0').toNat : Int) + rem) % 256).toNat) :: res
      else Char.ofNat ((((('a').toNat : Int) + rem - 10) % 256).toNat) :: res
    if num1 > 0 then toStringLoop base fuel num1 res1 else some res1

/-- Source `std::string toString(long num, unsigned short base)`.  The loop divides a positive
`num` by `base ≥ 2` each round, so `num + 1` rounds are a sufficient budget. -/
def toString (num : Int) (base : Nat) : Except Exception (List Char) :=
  if base < 2 then
    .error (Exception.invalid_argument "Conversion failed: base can not be lower than 2.")
  else if base > 36 then
    .error (Exception.invalid_argument "Conversion failed: base can not be higher than 36.")
  else
    let neg : Bool := decide (num < 0)
    let num1 : Int := if neg then wrapLong (-num) else num
    match toStringLoop base (num1.toNat + 1) num1 [] with
    | none => .error Exception.fuel_exhausted
    | some res => .ok (if neg then '-' :: res else res)

/-! ## The driver (`hdcv.hpp` lines 210-270) -/

/-- Smallest value of a 32-bit `int`. -/
def INT_MIN : Int := -2147483648

/-- Largest value of a 32-bit `int`. -/
def INT_MAX : Int := 2147483647

/-- Conversion of an `int` to `unsigned short`, as at the call of `fromString` and of
`toString` with the result of `std::stoi`: reduction modulo `65536`. -/
def toUnsignedShort (x : Int) : Nat := (x % 65536).toNat

/-- Modelled from the C++ standard library, which is not part of the repository: `isspace`
in the "C" locale, true of the space and of the codes 9 to 13. -/
def isSpace (c : Char) : Bool :=
  decide (c.toNat = 32) || (decide (9 ≤ c.toNat) && decide (c.toNat ≤ 13))

/-- Value of a sequence of decimal digits, on top of the accumulator `acc`. -/
def stoiDigits : List Char → Int → Int
  | [], acc => acc
  | c :: cs, acc => stoiDigits cs (acc * 10 + ((c.toNat : Int) - (('0').toNat : Int)))

/-- Modelled from the C++ standard library, which is not part of the repository:
`std::stoi(str)` in base 10.  It skips leading white space, reads an optional sign and then
the longest run of decimal digits; it throws `std::invalid_argument` when there is no digit
and `std::out_of_range` when the value is no `int`.  The `what()` text is that of libstdc++. -/
def stoi (str : List Char) : Except Exception Int :=
  let s : List Char := str.dropWhile isSpace
  let neg : Bool := decide (s.head? = some '-')
  let body : List Char := if s.head? = some '-' ∨ s.head? = some '+' then s.tail else s
  let ds : List Char := body.takeWhile isNumber
  if ds.length = 0 then .error (Exception.invalid_argument "stoi")
  else
    let v : Int := if neg then -(stoiDigits ds 0) else stoiDigits ds 0
    if v < INT_MIN ∨ v > INT_MAX then .error (Exception.out_of_range "stoi") else .ok v

/-- The text that `displayHelp()` writes to `std::cout`. -/
def helpText : List Char :=
  ("hdcv [number] [number base] [target base] [OPTION]...\nConverts number between bases."
    ++ "\n\n\tOptions:\n\t-h\tdisplay help\n\t-u\tforce uppercase for results with base>10"
    ++ "\n\nExit status:\n 0 if OK,\n non-zero otherwise.").toList

/-- The `for` loop of `converter` over the arguments from index `i` on: either an early
return, with the text written and the exit code, or the final `forceUppercase`. -/
def scanArgs : List (List Char) → Nat → Bool → Sum (List Char × Int) Bool
  | [], _, forceUppercase => Sum.inr forceUppercase
  | a :: rest, i, forceUppercase =>
    if a = "-u".toList then scanArgs rest (i + 1) true
    else if a = "-h".toList then Sum.inl (helpText, 0)
    else if i > 3 then
      Sum.inl ("Unknown argument: ".toList ++ a ++ ". See hdcv -h for usage.".toList, 2)
    else scanArgs rest (i + 1) forceUppercase

/-- The order in which the three throwing parts of
`toString(fromString(argv[1], std::stoi(argv[2])), std::stoi(argv[3]))` run: the source radix
is read before `fromString` is called, the target radix at any point before `toString` is
called.  C++ leaves the order of the evaluation of function arguments to the compiler. -/
inductive EvalOrder where
  | sourceParseTarget
  | sourceTargetParse
  | targetSourceParse
  deriving DecidableEq, Repr

/-- The expression `toString(fromString(argv[1], std::stoi(argv[2])), std::stoi(argv[3]))` of
`converter`, under an evaluation order. -/
def convert (order : EvalOrder) (number src dst : List Char) : Except Exception (List Char) :=
  match order with
  | EvalOrder.sourceParseTarget =>
    match stoi src with
    | .error e => .error e
    | .ok s =>
      match fromString number (toUnsignedShort s) with
      | .error e => .error e
      | .ok v =>
        match stoi dst with
        | .error e => .error e
        | .ok d => toString v (toUnsignedShort d)
  | EvalOrder.sourceTargetParse =>
    match stoi src with
    | .error e => .error e
    | .ok s =>
      match stoi dst with
      | .error e => .error e
      | .ok d =>
        match fromString number (toUnsignedShort s) with
        | .error e => .error e
        | .ok v => toString v (toUnsignedShort d)
  | EvalOrder.targetSourceParse =>
    match stoi dst with
    | .error e => .error e
    | .ok d =>
      match stoi src with
      | .error e => .error e
      | .ok s =>
        match fromString number (toUnsignedShort s) with
        | .error e => .error e
        | .ok v => toString v (toUnsignedShort d)

/-- The two statements of `converter` after the checks of the arguments: the conversion and
the choice of the text to print. -/
def convertAndCase (order : EvalOrder) (forceUppercase : Bool) (number src dst : List Char) :
    Except Exception (List Char) :=
  match convert order number src dst with
  | .error e => .error e
  | .ok res => if forceUppercase then toUpperString res else .ok res

/-- The end of the `try` block of `converter` and its handlers: the result is printed and `0`
returned, `std::invalid_argument` prints `e.what()` and returns `4`, any other
`std::exception` (here `std::out_of_range`) prints `e.what()` and returns `5`, and
`catch (...)` returns `6`; the marker `fuel_exhausted` of the model falls to the last one. -/
def catchHandlers : Except Exception (List Char) → List Char × Int
  | .ok out => (out, 0)
  | .error (Exception.invalid_argument w) => (w.toList, 4)
  | .error (Exception.out_of_range w) => (w.toList, 5)
  | .error Exception.fuel_exhausted => ([], 6)

/-- Source `int converter(int argc, char **argv)`, with `argc` the length of `argv`: the text
written to `std::cout` and the value returned. -/
def converter (order : EvalOrder) (argv : List (List Char)) : List Char × Int :=
  match scanArgs argv 0 false with
  | Sum.inl early => early
  | Sum.inr forceUppercase =>
    if argv.length < 4 then ("Too few arguments. See hdcv -h for help.".toList, 1)
    else if !isNumberString (argv.getD 2 []) || !isNumberString (argv.getD 3 []) then ([], 3)
    else
      catchHandlers
        (convertAndCase order forceUppercase (argv.getD 1 []) (argv.getD 2 []) (argv.getD 3 []))

/-! ## Vocabulary of the specification -/

/-- Digit value of a character as the specification gives it: `'0'..'9'` are `0..9`,
`'a'..'z'` and `'A'..'Z'` are `10..35`; any other character has none. -/
def digitValue (c : Char) : Option Nat :=
  if ('0').toNat ≤ c.toNat ∧ c.toNat ≤ ('9').toNat then some (c.toNat - ('0').toNat)
  else if ('a').toNat ≤ c.toNat ∧ c.toNat ≤ ('z').toNat then some (c.toNat - ('a').toNat + 10)
  else if ('A').toNat ≤ c.toNat ∧ c.toNat ≤ ('Z').toNat then some (c.toNat - ('A').toNat + 10)
  else none

/-- A character is a valid digit under `radix` when it has a digit value below `radix`. -/
def validDigit (radix : Nat) (c : Char) : Bool :=
  match digitValue c with
  | some d => decide (d < radix)
  | none => false

/-- Digit value of a character, `0` for a character that has none. -/
def digitOf (c : Char) : Nat := (digitValue c).getD 0

/-- The specification's `valueToChar`: `'0' + v` for `v` in `0..9`, `'a' + (v - 10)` above. -/
def valueToChar (v : Nat) : Char :=
  if v < 10 then Char.ofNat (('0').toNat + v) else Char.ofNat (('a').toNat + (v - 10))

/-- Positional value of a digit sequence `d_1 .. d_n`, most significant digit first: the sum
of `d_i * radix ^ (n - i)`. -/
def positional (radix : Nat) : List Nat → Nat
  | [] => 0
  | d :: ds => d * radix ^ ds.length + positional radix ds

/-- The canonical base-`radix` digits of `n`, most significant first: `[0]` for `0`, and no
leading zero otherwise. -/
def canonicalDigits (radix n : Nat) : List Nat :=
  if n = 0 then [0] else (Nat.digits radix n).reverse

/-- Whether a text starts with `'-'`. -/
def hasSign (text : List Char) : Bool := decide (text.head? = some '-')

/-- The digit sequence of a text: the text without its leading `'-'`, if it has one. -/
def digitsOf (text : List Char) : List Char := if hasSign text then text.tail else text

/-- The magnitude a text denotes under `radix`: the positional value of its digit sequence. -/
def magnitude (radix : Nat) (text : List Char) : Nat :=
  positional radix ((digitsOf text).map digitOf)

/-- Lowercase form of a character: an uppercase letter becomes the lowercase one, any other
character stays. -/
def lowerChar (c : Char) : Char :=
  if ('A').toNat ≤ c.toNat ∧ c.toNat ≤ ('Z').toNat then Char.ofNat (c.toNat + 32) else c

/-- Uppercase form of a character: a lowercase letter becomes the uppercase one, any other
character stays. -/
def upperChar (c : Char) : Char :=
  if ('a').toNat ≤ c.toNat ∧ c.toNat ≤ ('z').toNat then Char.ofNat (c.toNat - 32) else c

/-- Case and leading-zero normalisation of a digit sequence: letters lowercased and the
leading zeros removed, `"0"` when nothing else remains. -/
def normalizeDigits (ds : List Char) : List Char :=
  match (ds.map lowerChar).dropWhile (fun c => decide (c = '0')) with
  | [] => ['0']
  | c :: cs => c :: cs

/-- The normal form of a text: its `'-'` kept as it is, before its normalised digit sequence. -/
def normalizeText (text : List Char) : List Char :=
  (if hasSign text then ['-'] else []) ++ normalizeDigits (digitsOf text)

/-- A decimal integer text: an optional `'-'` followed by one or more decimal digits. -/
def isDecimalText (text : List Char) : Bool :=
  !(digitsOf text).isEmpty && (digitsOf text).all isNumber

/-- The integer a decimal integer text denotes. -/
def decimalValue (text : List Char) : Int :=
  if hasSign text then -(magnitude 10 text : Int) else (magnitude 10 text : Int)

/-! ## Auxiliary definitions of the proofs -/

/-- One accepted round of the loop of `fromString`: the accumulator after a digit. -/
def digitStep (base : Nat) (res : Int) (c : Char) : Int :=
  wrapLong (res * (base : Int) + (digitOf c : Int))

/-- A digit sequence without its leading zeros, `[0]` when nothing else remains. -/
def stripZeros (l : List Nat) : List Nat :=
  match l.dropWhile (fun d => decide (d = 0)) with
  | [] => [0]
  | d :: ds => d :: ds

end hdcv

namespace hdcv

set_option maxRecDepth 100000

/-! ## Characters and machine integers -/

theorem toNat_ofNat_byte (n : Nat) (h : n < 256) : (Char.ofNat n).toNat = n := by
  unfold Char.ofNat
  have hv : n.isValidChar := by left; omega
  simp [hv, Char.ofNatAux, Char.toNat]
  rfl

theorem char_eq_of_toNat_eq (c d : Char) (h : c.toNat = d.toNat) : c = d := by
  rw [← Char.ofNat_toNat c, ← Char.ofNat_toNat d, h]

theorem wrapLong_of_isLong (v : Int) (h : isLong v) : wrapLong v = v := by
  unfold isLong LONG_MIN LONG_MAX at h
  unfold wrapLong
  omega

theorem isLong_wrapLong (x : Int) : isLong (wrapLong x) := by
  unfold isLong LONG_MIN LONG_MAX wrapLong
  omega

theorem wrapLong_modEq (x : Int) : wrapLong x ≡ x [ZMOD 18446744073709551616] := by
  unfold wrapLong Int.ModEq
  omega

theorem wrapLong_congr (a b : Int) (h : a ≡ b [ZMOD 18446744073709551616]) :
    wrapLong a = wrapLong b := by
  unfold Int.ModEq at h
  unfold wrapLong
  omega

/-! ## The loop of `fromString` -/

theorem code_zero : ('0').toNat = 48 := rfl
theorem code_nine : ('9').toNat = 57 := rfl
theorem code_a : ('a').toNat = 97 := rfl
theorem code_z : ('z').toNat = 122 := rfl
theorem code_A : ('A').toNat = 65 := rfl
theorem code_Z : ('Z').toNat = 90 := rfl
theorem code_minus : ('-').toNat = 45 := rfl

theorem eq_minus_iff (c : Char) : c = '-' ↔ c.toNat = 45 := by
  constructor
  · intro h; rw [h]; rfl
  · intro h; exact char_eq_of_toNat_eq c '-' (by rw [h]; rfl)

theorem toLower_upper (c : Char) (h1 : 65 ≤ c.toNat) (h2 : c.toNat ≤ 90) :
    toLower c = .ok (Char.ofNat (c.toNat + 32)) ∧ (Char.ofNat (c.toNat + 32)).toNat = c.toNat + 32 := by
  refine ⟨?_, toNat_ofNat_byte _ (by omega)⟩
  unfold toLower
  rw [code_A, code_Z, code_a]
  rw [if_pos ⟨h1, h2⟩]
  congr 2
  omega

theorem fromStringLoop_cons_valid (base : Nat) (c : Char) (cs : List Char) (i : Nat) (res : Int)
    (neg : Bool) (h0 : ¬(i = 0 ∧ c = '-')) (hv : validDigit base c = true) :
    fromStringLoop base (c :: cs) i res neg
      = fromStringLoop base cs (i + 1) (digitStep base res c) (if i = 0 then false else neg) := by
  have hneg : (if i = 0 then decide (c = '-') else neg) = (if i = 0 then false else neg) := by
    by_cases hi : i = 0
    · have : ¬ c = '-' := fun hc => h0 ⟨hi, hc⟩
      simp [hi, this]
    · simp [hi]
  have hguard : ¬(i = 0 ∧ (if i = 0 then false else neg) = true) := by
    rintro ⟨hi, h⟩
    simp [hi] at h
  rw [fromStringLoop]
  simp only [hneg, if_neg hguard]
  unfold validDigit digitValue at hv
  unfold digitStep digitOf digitValue isNumber
  simp only [code_zero, code_nine, code_a, code_z, code_A, code_Z] at hv ⊢
  by_cases hd : 48 ≤ c.toNat ∧ c.toNat ≤ 57
  · simp only [if_pos hd] at hv ⊢
    have hlt : c.toNat - 48 < base := by simpa using hv
    have hdec : (decide (c.toNat ≥ 48) && decide (c.toNat ≤ 57)) = true := by simp [hd.1, hd.2]
    simp only [hdec, if_true]
    have hng : ¬ ((c.toNat : Int) - ((48 : Nat) : Int) ≥ (base : Int)) := by omega
    rw [if_neg hng]
    congr 1
    simp only [Option.getD_some]
    unfold wrapLong
    omega
  · simp only [if_neg hd] at hv ⊢
    have hdec : (decide (c.toNat ≥ 48) && decide (c.toNat ≤ 57)) = false := by
      simp only [Bool.and_eq_false_imp, decide_eq_true_eq, decide_eq_false_iff_not]
      omega
    simp only [hdec, Bool.false_eq_true, if_false]
    by_cases hl : 97 ≤ c.toNat ∧ c.toNat ≤ 122
    · simp only [if_pos hl] at hv ⊢
      have hlt : c.toNat - 97 + 10 < base := by simpa using hv
      have hb : base > 10 := by omega
      rw [if_pos hb]
      have htl : toLower c = .ok c := by
        unfold toLower
        rw [code_A, code_Z, code_a, code_z, if_neg (by omega), if_pos (by omega)]
      rw [htl]
      simp only [Option.getD_some]
      have hng : ¬ (((c.toNat : Int) - ((97 : Nat) : Int) + 10) % 65536 ≥ (base : Int)) := by omega
      rw [if_neg hng]
      congr 1
      unfold wrapLong
      omega
    · simp only [if_neg hl] at hv ⊢
      by_cases hu : 65 ≤ c.toNat ∧ c.toNat ≤ 90
      · simp only [if_pos hu] at hv ⊢
        have hlt : c.toNat - 65 + 10 < base := by simpa using hv
        have hb : base > 10 := by omega
        rw [if_pos hb]
        obtain ⟨htl, hcode⟩ := toLower_upper c hu.1 hu.2
        rw [htl]
        simp only [Option.getD_some, hcode]
        have hng : ¬ ((((c.toNat + 32 : Nat) : Int) - ((97 : Nat) : Int) + 10) % 65536
            ≥ (base : Int)) := by omega
        rw [if_neg hng]
        congr 1
        unfold wrapLong
        omega
      · simp [if_neg hu] at hv

theorem fromStringLoop_cons_invalid (base : Nat) (c : Char) (cs : List Char) (i : Nat)
    (res : Int) (neg : Bool) (h0 : ¬(i = 0 ∧ c = '-')) (hv : validDigit base c = false) :
    ∃ w, fromStringLoop base (c :: cs) i res neg = .error (Exception.invalid_argument w) := by
  have hneg : (if i = 0 then decide (c = '-') else neg) = (if i = 0 then false else neg) := by
    by_cases hi : i = 0
    · have : ¬ c = '-' := fun hc => h0 ⟨hi, hc⟩
      simp [hi, this]
    · simp [hi]
  have hguard : ¬(i = 0 ∧ (if i = 0 then false else neg) = true) := by
    rintro ⟨hi, h⟩
    simp [hi] at h
  rw [fromStringLoop]
  simp only [hneg, if_neg hguard]
  unfold validDigit digitValue at hv
  unfold isNumber
  simp only [code_zero, code_nine, code_a, code_z, code_A, code_Z] at hv ⊢
  by_cases hd : 48 ≤ c.toNat ∧ c.toNat ≤ 57
  · simp only [if_pos hd] at hv
    have hlt : ¬ c.toNat - 48 < base := by simpa using hv
    have hdec : (decide (c.toNat ≥ 48) && decide (c.toNat ≤ 57)) = true := by simp [hd.1, hd.2]
    simp only [hdec, if_true]
    have hng : ((c.toNat : Int) - ((48 : Nat) : Int) ≥ (base : Int)) := by omega
    rw [if_pos hng]
    exact ⟨_, rfl⟩
  · simp only [if_neg hd] at hv
    have hdec : (decide (c.toNat ≥ 48) && decide (c.toNat ≤ 57)) = false := by
      simp only [Bool.and_eq_false_imp, decide_eq_true_eq, decide_eq_false_iff_not]
      omega
    simp only [hdec, Bool.false_eq_true, if_false]
    by_cases hb : base > 10
    · rw [if_pos hb]
      by_cases hl : 97 ≤ c.toNat ∧ c.toNat ≤ 122
      · simp only [if_pos hl] at hv
        have hlt : ¬ c.toNat - 97 + 10 < base := by simpa using hv
        have htl : toLower c = .ok c := by
          unfold toLower
          rw [code_A, code_Z, code_a, code_z, if_neg (by omega), if_pos (by omega)]
        rw [htl]
        have hng : (((c.toNat : Int) - ((97 : Nat) : Int) + 10) % 65536 ≥ (base : Int)) := by
          omega
        simp only [if_pos hng]
        exact ⟨_, rfl⟩
      · simp only [if_neg hl] at hv
        by_cases hu : 65 ≤ c.toNat ∧ c.toNat ≤ 90
        · simp only [if_pos hu] at hv
          have hlt : ¬ c.toNat - 65 + 10 < base := by simpa using hv
          obtain ⟨htl, hcode⟩ := toLower_upper c hu.1 hu.2
          rw [htl]
          have hng : ((((c.toNat + 32 : Nat) : Int) - ((97 : Nat) : Int) + 10) % 65536
              ≥ (base : Int)) := by omega
          simp only [hcode, if_pos hng]
          exact ⟨_, rfl⟩
        · have htl : toLower c = .error notALetter := by
            unfold toLower
            rw [code_A, code_Z, code_a, code_z, if_neg hu, if_neg hl]
          rw [htl]
          exact ⟨_, rfl⟩
    · rw [if_neg hb]
      exact ⟨_, rfl⟩

theorem fromStringLoop_sign (base : Nat) (cs : List Char) (res : Int) (neg : Bool) :
    fromStringLoop base ('-' :: cs) 0 res neg = fromStringLoop base cs 1 res true := by
  rw [fromStringLoop]
  simp

theorem fromStringLoop_valid (base : Nat) (cs : List Char) :
    ∀ (i : Nat) (res : Int) (neg : Bool), i ≠ 0 → (∀ c ∈ cs, validDigit base c = true) →
      fromStringLoop base cs i res neg = .ok (cs.foldl (digitStep base) res, neg) := by
  induction cs with
  | nil => intro i res neg _ _; rfl
  | cons c cs ih =>
    intro i res neg hi hall
    have hc : validDigit base c = true := hall c (List.mem_cons_self c cs)
    rw [fromStringLoop_cons_valid base c cs i res neg (fun h => hi h.1) hc, if_neg hi]
    rw [ih (i + 1) _ neg (Nat.succ_ne_zero i) (fun d hd => hall d (List.mem_cons_of_mem c hd))]
    rfl

theorem fromStringLoop_invalid (base : Nat) (cs : List Char) :
    ∀ (i : Nat) (res : Int) (neg : Bool), i ≠ 0 → (∃ c ∈ cs, validDigit base c = false) →
      ∃ w, fromStringLoop base cs i res neg = .error (Exception.invalid_argument w) := by
  induction cs with
  | nil => intro i res neg _ h; obtain ⟨c, hc, _⟩ := h; cases hc
  | cons c cs ih =>
    intro i res neg hi hex
    by_cases hc : validDigit base c = true
    · rw [fromStringLoop_cons_valid base c cs i res neg (fun h => hi h.1) hc]
      apply ih (i + 1) _ _ (Nat.succ_ne_zero i)
      obtain ⟨d, hd, hdv⟩ := hex
      rcases List.mem_cons.mp hd with rfl | hd
      · rw [hc] at hdv; cases hdv
      · exact ⟨d, hd, hdv⟩
    · exact fromStringLoop_cons_invalid base c cs i res neg (fun h => hi h.1) (by simpa using hc)

theorem positional_cons (radix d : Nat) (ds : List Nat) :
    positional radix (d :: ds) = d * radix ^ ds.length + positional radix ds := rfl

theorem foldl_digitStep_modEq (base : Nat) (cs : List Char) :
    ∀ res : Int, cs.foldl (digitStep base) res
      ≡ res * (base : Int) ^ cs.length + (positional base (cs.map digitOf) : Int)
        [ZMOD 18446744073709551616] := by
  induction cs with
  | nil => intro res; simp [positional]
  | cons c cs ih =>
    intro res
    rw [List.foldl_cons, List.map_cons, positional_cons, List.length_cons, List.length_map]
    refine (ih (digitStep base res c)).trans ?_
    have h1 : digitStep base res c ≡ res * (base : Int) + (digitOf c : Int)
        [ZMOD 18446744073709551616] := wrapLong_modEq _
    have h2 := (h1.mul_right ((base : Int) ^ cs.length)).add_right
      ((positional base (cs.map digitOf) : Nat) : Int)
    refine h2.trans ?_
    push_cast
    rw [pow_succ]
    have : (res * (base : Int) + (digitOf c : Int)) * (base : Int) ^ cs.length
        + (positional base (List.map digitOf cs) : Int)
        = res * ((base : Int) ^ cs.length * (base : Int))
          + ((digitOf c : Int) * (base : Int) ^ cs.length
            + (positional base (List.map digitOf cs) : Int)) := by ring
    rw [this]

theorem foldl_digitStep_wrapped (base : Nat) (cs : List Char) :
    ∀ res : Int, wrapLong res = res →
      wrapLong (cs.foldl (digitStep base) res) = cs.foldl (digitStep base) res := by
  induction cs with
  | nil => intro res h; exact h
  | cons c cs ih =>
    intro res _
    rw [List.foldl_cons]
    exact ih _ (wrapLong_of_isLong _ (isLong_wrapLong _))

theorem foldl_digitStep_zero (base : Nat) (cs : List Char) :
    cs.foldl (digitStep base) 0 = wrapLong (positional base (cs.map digitOf) : Int) := by
  rw [← foldl_digitStep_wrapped base cs 0 (by decide)]
  apply wrapLong_congr
  simpa using foldl_digitStep_modEq base cs 0

/-! ## `fromString` as a whole -/

theorem validDigit_minus (base : Nat) : validDigit base '-' = false := rfl

theorem hasSign_cons (c : Char) (cs : List Char) : hasSign (c :: cs) = decide (c = '-') := by
  simp [hasSign]

theorem digitsOf_sign (cs : List Char) : digitsOf ('-' :: cs) = cs := by
  simp [digitsOf, hasSign]

theorem digitsOf_nosign (c : Char) (cs : List Char) (h : c ≠ '-') :
    digitsOf (c :: cs) = c :: cs := by
  simp [digitsOf, hasSign, h]

theorem fromString_ok (base : Nat) (text : List Char) (hne : text ≠ [])
    (hall : ∀ c ∈ digitsOf text, validDigit base c = true) :
    fromString text base
      = .ok (if hasSign text then wrapLong (-(wrapLong (magnitude base text : Int)))
             else wrapLong (magnitude base text : Int)) := by
  cases text with
  | nil => exact absurd rfl hne
  | cons c cs =>
    unfold fromString magnitude
    rw [if_neg (by simp)]
    by_cases hc : c = '-'
    · subst hc
      rw [digitsOf_sign] at hall ⊢
      rw [fromStringLoop_sign, fromStringLoop_valid base cs 1 0 true (by decide) hall]
      simp only [hasSign_cons, decide_True, if_true, foldl_digitStep_zero]
    · rw [digitsOf_nosign c cs hc] at hall ⊢
      rw [fromStringLoop_cons_valid base c cs 0 0 false (fun h => hc h.2)
        (hall c (List.mem_cons_self c cs))]
      rw [fromStringLoop_valid base cs 1 _ _ (by decide)
        (fun d hd => hall d (List.mem_cons_of_mem c hd))]
      rw [← List.foldl_cons, foldl_digitStep_zero]
      simp [hasSign_cons, hc]

theorem fromString_error (base : Nat) (text : List Char)
    (h : text = [] ∨ ∃ c ∈ digitsOf text, validDigit base c = false) :
    ∃ w, fromString text base = .error (Exception.invalid_argument w) := by
  cases text with
  | nil => exact ⟨_, rfl⟩
  | cons c cs =>
    rcases h with h | ⟨d, hd, hdv⟩
    · cases h
    · unfold fromString
      rw [if_neg (by simp)]
      by_cases hc : c = '-'
      · subst hc
        rw [digitsOf_sign] at hd
        obtain ⟨w, hw⟩ := fromStringLoop_invalid base cs 1 0 true (by decide) ⟨d, hd, hdv⟩
        rw [fromStringLoop_sign, hw]
        exact ⟨w, rfl⟩
      · rw [digitsOf_nosign c cs hc] at hd
        by_cases hv : validDigit base c = true
        · rw [fromStringLoop_cons_valid base c cs 0 0 false (fun h => hc h.2) hv]
          rcases List.mem_cons.mp hd with rfl | hd
          · rw [hv] at hdv; cases hdv
          · obtain ⟨w, hw⟩ := fromStringLoop_invalid base cs 1 (digitStep base 0 c)
              (if 0 = 0 then false else false) (by decide) ⟨d, hd, hdv⟩
            rw [hw]
            exact ⟨w, rfl⟩
        · obtain ⟨w, hw⟩ := fromStringLoop_cons_invalid base c cs 0 0 false (fun h => hc h.2)
            (by simpa using hv)
          rw [hw]
          exact ⟨w, rfl⟩

/-! ## The loop of `toString` -/

theorem tdiv_pos_cases (num : Int) (base : Nat)
    (h : Int.tdiv num (base : Int) > 0) :
    ∃ m : Nat, num = (m : Int) ∧ 0 < m / base ∧ Int.tdiv num (base : Int) = ((m / base : Nat) : Int) := by
  rcases Int.le_total 0 num with hn | hn
  · obtain ⟨m, rfl⟩ := Int.eq_ofNat_of_zero_le hn
    rw [← Int.ofNat_tdiv] at h ⊢
    exact ⟨m, rfl, by exact_mod_cast h, rfl⟩
  · exfalso
    obtain ⟨k, hk⟩ := Int.eq_ofNat_of_zero_le (Int.neg_nonneg.mpr hn)
    have : num = -(k : Int) := by omega
    rw [this, Int.neg_tdiv, ← Int.ofNat_tdiv] at h
    have h0 : (0 : Int) ≤ ((k / base : Nat) : Int) := Int.ofNat_nonneg _
    exact absurd h (by linarith)

theorem toStringLoop_terminates (base : Nat) (hb : 2 ≤ base) :
    ∀ (fuel : Nat) (num : Int) (res : List Char), num.toNat < fuel →
      ∃ out, toStringLoop base fuel num res = some out := by
  intro fuel
  induction fuel with
  | zero => intro num res h; omega
  | succ fuel ih =>
    intro num res h
    rw [toStringLoop]
    by_cases hq : Int.tdiv num (base : Int) > 0
    · simp only [if_pos hq]
      apply ih
      obtain ⟨m, rfl, hpos, hdiv⟩ := tdiv_pos_cases num base hq
      rw [hdiv]
      have : m / base < m := Nat.div_lt_self (by
        rcases Nat.eq_zero_or_pos m with h0 | h0
        · rw [h0] at hpos; simp at hpos
        · exact h0) (by omega)
      simp only [Int.toNat_ofNat] at h ⊢
      omega
    · simp only [if_neg hq]
      exact ⟨_, rfl⟩

theorem canonicalDigits_step (base m : Nat) (hb : 2 ≤ base) :
    canonicalDigits base m
      = (if m / base = 0 then [] else canonicalDigits base (m / base)) ++ [m % base] := by
  unfold canonicalDigits
  rcases Nat.eq_zero_or_pos m with h0 | h0
  · subst h0; simp
  · rw [if_neg (by omega), Nat.digits_def' (by omega) h0, List.reverse_cons]
    by_cases hq : m / base = 0
    · simp [hq]
    · simp [hq]

theorem digit_char_low (base m : Nat) (res : List Char) (hb : 2 ≤ base) (hb2 : base ≤ 36) :
    (if (Int.tmod (m : Int) (base : Int)) % 65536 < 10
      then Char.ofNat ((((('0').toNat : Int) + (Int.tmod (m : Int) (base : Int)) % 65536)
        % 256).toNat) :: res
      else Char.ofNat ((((('a').toNat : Int) + (Int.tmod (m : Int) (base : Int)) % 65536 - 10)
        % 256).toNat) :: res)
      = valueToChar (m % base) :: res := by
  have hlt : m % base < base := Nat.mod_lt _ (by omega)
  rw [← Int.ofNat_tmod]
  unfold valueToChar
  rw [code_zero, code_a]
  by_cases h : m % base < 10
  · rw [if_pos (by omega), if_pos h]
    congr 2
    omega
  · rw [if_neg (by omega), if_neg h]
    congr 2
    omega

theorem toStringLoop_nat (base : Nat) (hb : 2 ≤ base) (hb2 : base ≤ 36) :
    ∀ (fuel m : Nat) (res : List Char), m < fuel →
      toStringLoop base fuel (m : Int) res
        = some ((canonicalDigits base m).map valueToChar ++ res) := by
  intro fuel
  induction fuel with
  | zero => intro m res h; omega
  | succ fuel ih =>
    intro m res h
    rw [toStringLoop]
    simp only [digit_char_low base m res hb hb2]
    rw [canonicalDigits_step base m hb, ← Int.ofNat_tdiv]
    by_cases hq : m / base = 0
    · have : ¬ (((m / base : Nat) : Int) > 0) := by rw [hq]; simp
      simp [if_neg this, hq]
    · have hpos : ((m / base : Nat) : Int) > 0 := by
        have : 0 < m / base := Nat.pos_of_ne_zero hq
        exact_mod_cast this
      have hm : 0 < m := by
        rcases Nat.eq_zero_or_pos m with h0 | h0
        · rw [h0] at hq; simp at hq
        · exact h0
      have hlt : m / base < m := Nat.div_lt_self hm (by omega)
      rw [if_pos hpos, ih (m / base) _ (by omega)]
      simp [hq]

/-! ## `toString` as a whole and the canonical digits -/

theorem toString_ok (v : Int) (r : Nat) (hr : 2 ≤ r) (hr2 : r ≤ 36) (hv : isLong v)
    (hmin : v ≠ LONG_MIN) :
    toString v r
      = .ok ((if v < 0 then ['-'] else []) ++ (canonicalDigits r v.natAbs).map valueToChar) := by
  unfold isLong LONG_MIN LONG_MAX at hv
  unfold LONG_MIN at hmin
  unfold toString
  rw [if_neg (by omega), if_neg (by omega)]
  have habs : (if decide (v < 0) = true then wrapLong (-v) else v) = (v.natAbs : Int) := by
    by_cases h : v < 0
    · simp only [h, decide_True, if_true]
      unfold wrapLong
      omega
    · simp only [h, decide_False, Bool.false_eq_true, if_false]
      omega
  simp only [habs, Int.toNat_ofNat]
  rw [toStringLoop_nat r hr hr2 _ _ [] (Nat.lt_succ_self _)]
  by_cases h : v < 0
  · simp [h]
  · simp [h]

theorem positional_eq_ofDigits (r : Nat) (ds : List Nat) :
    positional r ds = Nat.ofDigits r ds.reverse := by
  induction ds with
  | nil => rfl
  | cons d ds ih =>
    rw [positional_cons, List.reverse_cons, Nat.ofDigits_append, ih, List.length_reverse,
      Nat.ofDigits_singleton]
    ring

theorem positional_canonicalDigits (r n : Nat) : positional r (canonicalDigits r n) = n := by
  unfold canonicalDigits
  by_cases h : n = 0
  · subst h; rfl
  · rw [if_neg h, positional_eq_ofDigits, List.reverse_reverse, Nat.ofDigits_digits]

theorem canonicalDigits_lt (r n : Nat) (hr : 2 ≤ r) : ∀ d ∈ canonicalDigits r n, d < r := by
  intro d hd
  unfold canonicalDigits at hd
  by_cases h : n = 0
  · rw [if_pos h] at hd
    simp at hd
    omega
  · rw [if_neg h] at hd
    exact Nat.digits_lt_base (by omega) (List.mem_reverse.mp hd)

theorem canonicalDigits_ne_nil (r n : Nat) : canonicalDigits r n ≠ [] := by
  unfold canonicalDigits
  by_cases h : n = 0
  · rw [if_pos h]; simp
  · rw [if_neg h]
    simpa using (Nat.digits_ne_nil_iff_ne_zero.mpr h)

theorem canonicalDigits_head (r n : Nat) (h : (canonicalDigits r n).head? = some 0) :
    n = 0 := by
  by_contra hn
  unfold canonicalDigits at h
  rw [if_neg hn, List.head?_reverse] at h
  have hne : Nat.digits r n ≠ [] := Nat.digits_ne_nil_iff_ne_zero.mpr hn
  rw [List.getLast?_eq_getLast _ hne] at h
  exact Nat.getLast_digit_ne_zero r hn (Option.some.inj h)

/-! ## When `fromString` raises -/

theorem bad_char_iff (radix : Nat) (text : List Char) :
    (∃ (i : Nat) (c : Char), text[i]? = some c ∧ ¬(i = 0 ∧ c = '-') ∧ validDigit radix c = false)
      ↔ ∃ c ∈ digitsOf text, validDigit radix c = false := by
  cases text with
  | nil => simp [digitsOf, hasSign]
  | cons c0 cs =>
    by_cases hc : c0 = '-'
    · subst hc
      rw [digitsOf_sign]
      constructor
      · rintro ⟨i, c, hget, hnot, hv⟩
        cases i with
        | zero =>
          simp only [List.getElem?_cons_zero, Option.some.injEq] at hget
          exact absurd ⟨rfl, hget.symm⟩ hnot
        | succ j =>
          rw [List.getElem?_cons_succ] at hget
          exact ⟨c, List.getElem?_mem hget, hv⟩
      · rintro ⟨c, hmem, hv⟩
        obtain ⟨j, hj⟩ := List.mem_iff_getElem?.mp hmem
        exact ⟨j + 1, c, by rw [List.getElem?_cons_succ]; exact hj, by simp, hv⟩
    · rw [digitsOf_nosign c0 cs hc]
      constructor
      · rintro ⟨i, c, hget, _, hv⟩
        exact ⟨c, List.getElem?_mem hget, hv⟩
      · rintro ⟨c, hmem, hv⟩
        obtain ⟨i, hi⟩ := List.mem_iff_getElem?.mp hmem
        refine ⟨i, c, hi, ?_, hv⟩
        rintro ⟨h0, hm⟩
        subst h0
        simp only [List.getElem?_cons_zero, Option.some.injEq] at hi
        exact hc (hi.trans hm)

theorem fromString_ok_isLong (radix : Nat) (text : List Char) (hne : text ≠ [])
    (hall : ∀ c ∈ digitsOf text, validDigit radix c = true) :
    ∃ v, fromString text radix = .ok v ∧ isLong v := by
  refine ⟨_, fromString_ok radix text hne hall, ?_⟩
  by_cases h : hasSign text = true
  · rw [if_pos h]; exact isLong_wrapLong _
  · rw [if_neg h]; exact isLong_wrapLong _

/-! ## Formatting then parsing -/

theorem digitValue_valueToChar (d : Nat) (h : d < 36) : digitValue (valueToChar d) = some d := by
  interval_cases d <;> rfl

theorem digitOf_valueToChar (d : Nat) (h : d < 36) : digitOf (valueToChar d) = d := by
  unfold digitOf
  rw [digitValue_valueToChar d h]
  rfl

theorem validDigit_valueToChar (r d : Nat) (hr : r ≤ 36) (h : d < r) :
    validDigit r (valueToChar d) = true := by
  unfold validDigit
  rw [digitValue_valueToChar d (by omega)]
  simpa using h

theorem valueToChar_ne_minus (d : Nat) (h : d < 36) : valueToChar d ≠ '-' := by
  intro hc
  have := digitValue_valueToChar d h
  rw [hc] at this
  cases this

theorem map_digitOf_valueToChar (ds : List Nat) (h : ∀ d ∈ ds, d < 36) :
    (ds.map valueToChar).map digitOf = ds := by
  induction ds with
  | nil => rfl
  | cons d ds ih =>
    rw [List.map_cons, List.map_cons, digitOf_valueToChar d (h d (List.mem_cons_self d ds)),
      ih (fun e he => h e (List.mem_cons_of_mem d he))]

theorem hasSign_map_valueToChar (ds : List Nat) (h : ∀ d ∈ ds, d < 36) :
    hasSign (ds.map valueToChar) = false := by
  cases ds with
  | nil => rfl
  | cons d ds =>
    rw [List.map_cons, hasSign_cons]
    simpa using valueToChar_ne_minus d (h d (List.mem_cons_self d ds))

theorem fromString_toString (v : Int) (r : Nat) (hr : 2 ≤ r) (hr2 : r ≤ 36) (hv : isLong v)
    (hmin : v ≠ LONG_MIN) :
    ∃ s, toString v r = .ok s ∧ fromString s r = .ok v := by
  refine ⟨_, toString_ok v r hr hr2 hv hmin, ?_⟩
  have hlt : ∀ d ∈ canonicalDigits r v.natAbs, d < r := canonicalDigits_lt r v.natAbs hr
  have hlt36 : ∀ d ∈ canonicalDigits r v.natAbs, d < 36 := fun d hd => by
    have := hlt d hd
    omega
  have hvalid : ∀ c ∈ (canonicalDigits r v.natAbs).map valueToChar, validDigit r c = true := by
    intro c hc
    obtain ⟨d, hd, rfl⟩ := List.mem_map.mp hc
    exact validDigit_valueToChar r d hr2 (hlt d hd)
  have hns := hasSign_map_valueToChar _ hlt36
  unfold isLong LONG_MIN LONG_MAX at hv
  unfold LONG_MIN at hmin
  by_cases h : v < 0
  · simp only [h, if_true, List.singleton_append]
    rw [fromString_ok r _ (by simp) (by rw [digitsOf_sign]; exact hvalid)]
    unfold magnitude
    rw [digitsOf_sign, map_digitOf_valueToChar _ hlt36, positional_canonicalDigits]
    simp only [hasSign_cons, decide_True, if_true]
    refine congrArg Except.ok ?_
    unfold wrapLong
    omega
  · simp only [h, if_false, List.nil_append]
    have hne : (canonicalDigits r v.natAbs).map valueToChar ≠ [] := by
      simpa using canonicalDigits_ne_nil r v.natAbs
    have hdig : digitsOf ((canonicalDigits r v.natAbs).map valueToChar)
        = (canonicalDigits r v.natAbs).map valueToChar := by
      unfold digitsOf
      rw [hns]
      rfl
    rw [fromString_ok r _ hne (by rw [hdig]; exact hvalid)]
    unfold magnitude
    rw [hdig, map_digitOf_valueToChar _ hlt36, positional_canonicalDigits, hns]
    simp only [Bool.false_eq_true, if_false]
    refine congrArg Except.ok ?_
    unfold wrapLong
    omega

/-! ## Parsing then formatting -/

theorem positional_pos (r d : Nat) (ds : List Nat) (hr : 2 ≤ r) (hd : d ≠ 0) :
    positional r (d :: ds) ≠ 0 := by
  rw [positional_cons]
  have h1 : 0 < r ^ ds.length := pow_pos (by omega) _
  have h2 : 0 < d * r ^ ds.length := Nat.mul_pos (Nat.pos_of_ne_zero hd) h1
  omega

theorem canonicalDigits_positional (r : Nat) (hr : 2 ≤ r) (l : List Nat)
    (hl : ∀ d ∈ l, d < r) : canonicalDigits r (positional r l) = stripZeros l := by
  induction l with
  | nil => rfl
  | cons d l ih =>
    by_cases hd : d = 0
    · subst hd
      have hp : positional r (0 :: l) = positional r l := by rw [positional_cons]; simp
      rw [hp, ih (fun e he => hl e (List.mem_cons_of_mem 0 he))]
      simp [stripZeros]
    · have hs : stripZeros (d :: l) = d :: l := by simp [stripZeros, hd]
      rw [hs]
      unfold canonicalDigits
      rw [if_neg (positional_pos r d l hr hd), positional_eq_ofDigits,
        Nat.digits_ofDigits r (by omega) _ (by
          intro e he
          exact hl e (List.mem_reverse.mp he)) (by
          intro _
          simpa using hd), List.reverse_reverse]

theorem eq_zero_char_iff (c : Char) : c = '0' ↔ c.toNat = 48 := by
  constructor
  · intro h; rw [h]; rfl
  · intro h; exact char_eq_of_toNat_eq c '0' (by rw [h]; rfl)

theorem valueToChar_digitOf (c : Char) (h : digitValue c ≠ none) :
    valueToChar (digitOf c) = lowerChar c ∧ (digitOf c = 0 ↔ lowerChar c = '0') := by
  unfold digitOf valueToChar lowerChar
  unfold digitValue at h ⊢
  simp only [code_zero, code_nine, code_a, code_z, code_A, code_Z] at h ⊢
  by_cases hd : 48 ≤ c.toNat ∧ c.toNat ≤ 57
  · simp only [if_pos hd, Option.getD_some]
    rw [if_pos (by omega), if_neg (by omega)]
    have : 48 + (c.toNat - 48) = c.toNat := by omega
    rw [this, Char.ofNat_toNat]
    refine ⟨rfl, ?_⟩
    rw [eq_zero_char_iff]
    omega
  · simp only [if_neg hd] at h ⊢
    by_cases hl : 97 ≤ c.toNat ∧ c.toNat ≤ 122
    · simp only [if_pos hl, Option.getD_some]
      rw [if_neg (by omega), if_neg (by omega)]
      have : 97 + (c.toNat - 97 + 10 - 10) = c.toNat := by omega
      rw [this, Char.ofNat_toNat]
      refine ⟨rfl, ?_⟩
      constructor
      · intro h0; omega
      · intro h0
        rw [eq_zero_char_iff] at h0
        omega
    · simp only [if_neg hl] at h ⊢
      by_cases hu : 65 ≤ c.toNat ∧ c.toNat ≤ 90
      · simp only [if_pos hu, Option.getD_some]
        rw [if_neg (by omega)]
        have : 97 + (c.toNat - 65 + 10 - 10) = c.toNat + 32 := by omega
        rw [this]
        refine ⟨rfl, ?_⟩
        constructor
        · intro h0; omega
        · intro h0
          have := toNat_ofNat_byte (c.toNat + 32) (by omega)
          rw [h0, code_zero] at this
          omega
      · simp [if_neg hu] at h

theorem digitValue_ne_none_of_valid (r : Nat) (c : Char) (h : validDigit r c = true) :
    digitValue c ≠ none := by
  intro hn
  unfold validDigit at h
  rw [hn] at h
  cases h

theorem digitOf_lt_of_valid (r : Nat) (c : Char) (h : validDigit r c = true) :
    digitOf c < r := by
  unfold validDigit at h
  unfold digitOf
  cases hd : digitValue c with
  | none => rw [hd] at h; cases h
  | some d =>
    rw [hd] at h
    simpa using h

theorem dropWhile_zero_map (ds : List Char) (h : ∀ c ∈ ds, digitValue c ≠ none) :
    ((ds.map digitOf).dropWhile (fun d => decide (d = 0))).map valueToChar
      = (ds.map lowerChar).dropWhile (fun c => decide (c = '0')) := by
  induction ds with
  | nil => rfl
  | cons c cs ih =>
    obtain ⟨hval, hzero⟩ := valueToChar_digitOf c (h c (List.mem_cons_self c cs))
    have htail : ∀ e ∈ cs, digitValue e ≠ none := fun e he => h e (List.mem_cons_of_mem c he)
    rw [List.map_cons, List.map_cons]
    by_cases hz : digitOf c = 0
    · rw [List.dropWhile_cons_of_pos (by simpa using hz),
        List.dropWhile_cons_of_pos (by simpa using hzero.mp hz)]
      exact ih htail
    · rw [List.dropWhile_cons_of_neg (by simpa using hz),
        List.dropWhile_cons_of_neg (by simpa using fun h0 => hz (hzero.mpr h0))]
      rw [List.map_cons, hval]
      congr 1
      clear ih hz hzero hval h
      induction cs with
      | nil => rfl
      | cons e es ih2 =>
        rw [List.map_cons, List.map_cons, List.map_cons,
          (valueToChar_digitOf e (htail e (List.mem_cons_self e es))).1,
          ih2 (fun x hx => htail x (List.mem_cons_of_mem e hx))]

theorem stripZeros_map (ds : List Char) (h : ∀ c ∈ ds, digitValue c ≠ none) :
    (stripZeros (ds.map digitOf)).map valueToChar = normalizeDigits ds := by
  unfold stripZeros normalizeDigits
  rw [← dropWhile_zero_map ds h]
  cases (ds.map digitOf).dropWhile (fun d => decide (d = 0)) with
  | nil => rfl
  | cons d l => rfl

theorem toString_fromString_norm (r : Nat) (text : List Char) (v : Int) (hr : 2 ≤ r)
    (hr2 : r ≤ 36) (hacc : fromString text r = .ok v)
    (hfit : (magnitude r text : Int) ≤ LONG_MAX) :
    toString v r
      = .ok ((if hasSign text = true ∧ magnitude r text ≠ 0 then ['-'] else [])
          ++ normalizeDigits (digitsOf text)) := by
  have hne : text ≠ [] := by
    intro h
    obtain ⟨w, hw⟩ := fromString_error r text (Or.inl h)
    rw [hw] at hacc
    cases hacc
  have hall : ∀ c ∈ digitsOf text, validDigit r c = true := by
    intro c hc
    by_contra hv
    obtain ⟨w, hw⟩ := fromString_error r text (Or.inr ⟨c, hc, by simpa using hv⟩)
    rw [hw] at hacc
    cases hacc
  rw [fromString_ok r text hne hall] at hacc
  have hv := Except.ok.inj hacc
  unfold LONG_MAX at hfit
  have hlong : isLong v ∧ v ≠ LONG_MIN ∧ v.natAbs = magnitude r text
      ∧ (v < 0 ↔ (hasSign text = true ∧ magnitude r text ≠ 0)) := by
    unfold isLong LONG_MIN LONG_MAX
    by_cases hs : hasSign text = true
    · rw [if_pos hs] at hv
      unfold wrapLong at hv
      simp only [hs, true_and]
      omega
    · rw [if_neg hs] at hv
      unfold wrapLong at hv
      simp only [hs, Bool.false_eq_true, false_and, iff_false]
      omega
  obtain ⟨h1, h2, h3, h4⟩ := hlong
  rw [toString_ok v r hr hr2 h1 h2, h3]
  have hcan : (canonicalDigits r (magnitude r text)).map valueToChar
      = normalizeDigits (digitsOf text) := by
    unfold magnitude
    rw [canonicalDigits_positional r hr _ (by
      intro d hd
      obtain ⟨c, hc, rfl⟩ := List.mem_map.mp hd
      exact digitOf_lt_of_valid r c (hall c hc))]
    exact stripZeros_map _ (fun c hc => digitValue_ne_none_of_valid r c (hall c hc))
  rw [hcan]
  by_cases hneg : v < 0
  · rw [if_pos hneg, if_pos (h4.mp hneg)]
  · rw [if_neg hneg, if_neg (fun h => hneg (h4.mpr h))]

/-! ## Characters of the output of `toString` -/

theorem valueToChar_class (d : Nat) (h : d < 36) :
    isNumber (valueToChar d) = true
      ∨ (('a').toNat ≤ (valueToChar d).toNat ∧ (valueToChar d).toNat ≤ ('z').toNat) := by
  interval_cases d <;> decide

theorem toString_chars (v : Int) (r : Nat) (hr : 2 ≤ r) (hr2 : r ≤ 36) (hv : isLong v)
    (hmin : v ≠ LONG_MIN) :
    ∃ s, toString v r = .ok s ∧ ∀ (i : Nat) (c : Char), s[i]? = some c →
      (i = 0 ∧ c = '-')
        ∨ ((isNumber c = true ∨ (('a').toNat ≤ c.toNat ∧ c.toNat ≤ ('z').toNat))
            ∧ validDigit r c = true) := by
  refine ⟨_, toString_ok v r hr hr2 hv hmin, ?_⟩
  have hdig : ∀ c ∈ (canonicalDigits r v.natAbs).map valueToChar,
      (isNumber c = true ∨ (('a').toNat ≤ c.toNat ∧ c.toNat ≤ ('z').toNat))
        ∧ validDigit r c = true := by
    intro c hc
    obtain ⟨d, hd, rfl⟩ := List.mem_map.mp hc
    have hlt := canonicalDigits_lt r v.natAbs hr d hd
    exact ⟨valueToChar_class d (by omega), validDigit_valueToChar r d hr2 hlt⟩
  intro i c hget
  by_cases h : v < 0
  · simp only [h, if_true, List.singleton_append] at hget
    cases i with
    | zero =>
      simp only [List.getElem?_cons_zero, Option.some.injEq] at hget
      exact Or.inl ⟨rfl, hget.symm⟩
    | succ j =>
      rw [List.getElem?_cons_succ] at hget
      exact Or.inr (hdig c (List.getElem?_mem hget))
  · simp only [h, if_false, List.nil_append] at hget
    exact Or.inr (hdig c (List.getElem?_mem hget))

/-! ## Case conversion -/

theorem isAlphabet_iff (c : Char) :
    isAlphabet c = true
      ↔ ((65 ≤ c.toNat ∧ c.toNat ≤ 90) ∨ (97 ≤ c.toNat ∧ c.toNat ≤ 122)) := by
  unfold isAlphabet
  rw [code_A, code_Z, code_a, code_z]
  by_cases hu : 65 ≤ c.toNat ∧ c.toNat ≤ 90
  · simp [hu]
  · by_cases hl : 97 ≤ c.toNat ∧ c.toNat ≤ 122
    · simp [hl]
    · have h1 : ¬ ((65 ≤ c.toNat ∧ c.toNat ≤ 90) ∨ (97 ≤ c.toNat ∧ c.toNat ≤ 122)) := by
        rintro (h | h)
        · exact hu h
        · exact hl h
      simp only [h1, iff_false]
      simp only [ge_iff_le, Bool.or_eq_true, Bool.and_eq_true, decide_eq_true_eq, hu, hl,
        or_self, if_false, Bool.false_eq_true, not_false_eq_true]

theorem toLower_eq (c : Char) :
    toLower c = if isAlphabet c = true then .ok (lowerChar c) else .error notALetter := by
  unfold toLower lowerChar
  rw [code_A, code_Z, code_a, code_z]
  by_cases hu : 65 ≤ c.toNat ∧ c.toNat ≤ 90
  · have ha : isAlphabet c = true := (isAlphabet_iff c).mpr (Or.inl hu)
    rw [if_pos hu, if_pos ha, if_pos hu]
    have : (c.toNat + (97 - 65)) % 256 = c.toNat + 32 := by omega
    rw [this]
  · rw [if_neg hu, if_neg hu]
    by_cases hl : 97 ≤ c.toNat ∧ c.toNat ≤ 122
    · have ha : isAlphabet c = true := (isAlphabet_iff c).mpr (Or.inr hl)
      rw [if_pos hl, if_pos ha]
    · have ha : ¬ isAlphabet c = true := fun h => by
        rcases (isAlphabet_iff c).mp h with h | h
        · exact hu h
        · exact hl h
      rw [if_neg hl, if_neg ha]

theorem toUpper_eq (c : Char) :
    toUpper c = if isAlphabet c = true then .ok (upperChar c) else .error notALetter := by
  unfold toUpper upperChar
  rw [code_A, code_Z, code_a, code_z]
  by_cases hu : 65 ≤ c.toNat ∧ c.toNat ≤ 90
  · have ha : isAlphabet c = true := (isAlphabet_iff c).mpr (Or.inl hu)
    rw [if_pos hu, if_pos ha, if_neg (by omega)]
  · rw [if_neg hu]
    by_cases hl : 97 ≤ c.toNat ∧ c.toNat ≤ 122
    · have ha : isAlphabet c = true := (isAlphabet_iff c).mpr (Or.inr hl)
      rw [if_pos hl, if_pos ha, if_pos hl]
      have : (c.toNat - (97 - 65)) % 256 = c.toNat - 32 := by omega
      rw [this]
    · have ha : ¬ isAlphabet c = true := fun h => by
        rcases (isAlphabet_iff c).mp h with h | h
        · exact hu h
        · exact hl h
      rw [if_neg hl, if_neg ha]

theorem lowerChar_toNat (c : Char) :
    (lowerChar c).toNat = if 65 ≤ c.toNat ∧ c.toNat ≤ 90 then c.toNat + 32 else c.toNat := by
  unfold lowerChar
  rw [code_A, code_Z]
  by_cases hu : 65 ≤ c.toNat ∧ c.toNat ≤ 90
  · rw [if_pos hu, if_pos hu, toNat_ofNat_byte _ (by omega)]
  · rw [if_neg hu, if_neg hu]

theorem upperChar_toNat (c : Char) :
    (upperChar c).toNat = if 97 ≤ c.toNat ∧ c.toNat ≤ 122 then c.toNat - 32 else c.toNat := by
  unfold upperChar
  rw [code_a, code_z]
  by_cases hl : 97 ≤ c.toNat ∧ c.toNat ≤ 122
  · rw [if_pos hl, if_pos hl, toNat_ofNat_byte _ (by omega)]
  · rw [if_neg hl, if_neg hl]

theorem lowerChar_of_not_alphabet (c : Char) (h : isAlphabet c = false) : lowerChar c = c := by
  apply char_eq_of_toNat_eq
  rw [lowerChar_toNat]
  have := (isAlphabet_iff c).not.mp (by simp [h])
  rw [if_neg (fun hu => this (Or.inl hu))]

theorem upperChar_of_not_alphabet (c : Char) (h : isAlphabet c = false) : upperChar c = c := by
  apply char_eq_of_toNat_eq
  rw [upperChar_toNat]
  have := (isAlphabet_iff c).not.mp (by simp [h])
  rw [if_neg (fun hl => this (Or.inr hl))]

theorem toLowerString_eq (s : List Char) : toLowerString s = .ok (s.map lowerChar) := by
  induction s with
  | nil => rfl
  | cons c cs ih =>
    rw [toLowerString, ih, toLower_eq]
    by_cases ha : isAlphabet c = true
    · simp [ha]
    · have hf : isAlphabet c = false := by simpa using ha
      simp [hf, lowerChar_of_not_alphabet c hf]

theorem toUpperString_eq (s : List Char) : toUpperString s = .ok (s.map upperChar) := by
  induction s with
  | nil => rfl
  | cons c cs ih =>
    rw [toUpperString, ih, toUpper_eq]
    by_cases ha : isAlphabet c = true
    · simp [ha]
    · have hf : isAlphabet c = false := by simpa using ha
      simp [hf, upperChar_of_not_alphabet c hf]

theorem lowerChar_idem (c : Char) : lowerChar (lowerChar c) = lowerChar c := by
  apply char_eq_of_toNat_eq
  rw [lowerChar_toNat (lowerChar c), lowerChar_toNat c]
  by_cases hu : 65 ≤ c.toNat ∧ c.toNat ≤ 90
  · rw [if_pos hu, if_neg (by omega)]
  · rw [if_neg hu, if_neg hu]

theorem upperChar_idem (c : Char) : upperChar (upperChar c) = upperChar c := by
  apply char_eq_of_toNat_eq
  rw [upperChar_toNat (upperChar c), upperChar_toNat c]
  by_cases hl : 97 ≤ c.toNat ∧ c.toNat ≤ 122
  · rw [if_pos hl, if_neg (by omega)]
  · rw [if_neg hl, if_neg hl]

/-! ## Parsing does not depend on the case of the letters -/

theorem fromStringLoop_map (base : Nat) (f : Char → Char)
    (p1 : ∀ c, f c = '-' ↔ c = '-') (p2 : ∀ c, isNumber (f c) = isNumber c)
    (p3 : ∀ c, isNumber c = true → f c = c) (p4 : ∀ c, toLower (f c) = toLower c)
    (cs : List Char) :
    ∀ (i : Nat) (res : Int) (neg : Bool),
      fromStringLoop base (cs.map f) i res neg = fromStringLoop base cs i res neg := by
  induction cs with
  | nil => intro i res neg; rfl
  | cons c cs ih =>
    intro i res neg
    rw [List.map_cons]
    by_cases hn : isNumber c = true
    · rw [p3 c hn, fromStringLoop, fromStringLoop]
      simp only [ih]
    · have hn2 : isNumber (f c) = false := by rw [p2]; simpa using hn
      have hn3 : isNumber c = false := by simpa using hn
      have hd : decide (f c = '-') = decide (c = '-') := by
        by_cases hc : c = '-'
        · rw [decide_eq_true hc, decide_eq_true ((p1 c).mpr hc)]
        · rw [decide_eq_false hc, decide_eq_false (fun h => hc ((p1 c).mp h))]
      rw [fromStringLoop, fromStringLoop]
      simp only [hn2, hn3, hd, p4 c, ih, Bool.false_eq_true, if_false]

theorem fromString_map (base : Nat) (f : Char → Char)
    (p1 : ∀ c, f c = '-' ↔ c = '-') (p2 : ∀ c, isNumber (f c) = isNumber c)
    (p3 : ∀ c, isNumber c = true → f c = c) (p4 : ∀ c, toLower (f c) = toLower c)
    (s : List Char) : fromString (s.map f) base = fromString s base := by
  unfold fromString
  rw [List.length_map, fromStringLoop_map base f p1 p2 p3 p4]

theorem isNumber_iff (c : Char) : isNumber c = true ↔ (48 ≤ c.toNat ∧ c.toNat ≤ 57) := by
  unfold isNumber
  rw [code_zero, code_nine]
  simp

theorem isNumber_congr (c d : Char) (h : (48 ≤ d.toNat ∧ d.toNat ≤ 57) ↔ (48 ≤ c.toNat ∧ c.toNat ≤ 57)) :
    isNumber d = isNumber c := by
  rw [Bool.eq_iff_iff, isNumber_iff, isNumber_iff]
  exact h

theorem isAlphabet_congr (c d : Char)
    (h : ((65 ≤ d.toNat ∧ d.toNat ≤ 90) ∨ (97 ≤ d.toNat ∧ d.toNat ≤ 122))
      ↔ ((65 ≤ c.toNat ∧ c.toNat ≤ 90) ∨ (97 ≤ c.toNat ∧ c.toNat ≤ 122))) :
    isAlphabet d = isAlphabet c := by
  rw [Bool.eq_iff_iff, isAlphabet_iff, isAlphabet_iff]
  exact h

theorem fromString_upper (base : Nat) (s : List Char) :
    fromString (s.map upperChar) base = fromString s base := by
  apply fromString_map
  · intro c
    rw [eq_minus_iff, eq_minus_iff, upperChar_toNat]
    split_ifs <;> omega
  · intro c
    apply isNumber_congr
    rw [upperChar_toNat]
    split_ifs <;> omega
  · intro c hc
    rw [isNumber_iff] at hc
    apply char_eq_of_toNat_eq
    rw [upperChar_toNat, if_neg (by omega)]
  · intro c
    rw [toLower_eq, toLower_eq]
    have ha : isAlphabet (upperChar c) = isAlphabet c := by
      apply isAlphabet_congr
      rw [upperChar_toNat]
      split_ifs <;> omega
    have hl : lowerChar (upperChar c) = lowerChar c := by
      apply char_eq_of_toNat_eq
      rw [lowerChar_toNat, lowerChar_toNat, upperChar_toNat]
      split_ifs <;> omega
    rw [ha, hl]

theorem fromString_lower (base : Nat) (s : List Char) :
    fromString (s.map lowerChar) base = fromString s base := by
  apply fromString_map
  · intro c
    rw [eq_minus_iff, eq_minus_iff, lowerChar_toNat]
    split_ifs <;> omega
  · intro c
    apply isNumber_congr
    rw [lowerChar_toNat]
    split_ifs <;> omega
  · intro c hc
    rw [isNumber_iff] at hc
    apply char_eq_of_toNat_eq
    rw [lowerChar_toNat, if_neg (by omega)]
  · intro c
    rw [toLower_eq, toLower_eq]
    have ha : isAlphabet (lowerChar c) = isAlphabet c := by
      apply isAlphabet_congr
      rw [lowerChar_toNat]
      split_ifs <;> omega
    rw [ha, lowerChar_idem]

/-! ## The driver: reading the radix arguments -/

theorem digitOf_of_isNumber (c : Char) (h : isNumber c = true) :
    (digitOf c : Int) = (c.toNat : Int) - (('0').toNat : Int) := by
  rw [isNumber_iff] at h
  unfold digitOf digitValue
  rw [code_zero, code_nine, if_pos h]
  simp only [Option.getD_some]
  omega

theorem stoiDigits_eq (ds : List Char) (h : ∀ c ∈ ds, isNumber c = true) :
    ∀ acc : Int, stoiDigits ds acc
      = acc * 10 ^ ds.length + (positional 10 (ds.map digitOf) : Int) := by
  induction ds with
  | nil => intro acc; simp [stoiDigits, positional]
  | cons c cs ih =>
    intro acc
    rw [stoiDigits, ih (fun d hd => h d (List.mem_cons_of_mem c hd)), List.map_cons,
      positional_cons, ← digitOf_of_isNumber c (h c (List.mem_cons_self c cs)),
      List.length_cons, List.length_map]
    push_cast
    ring

theorem isSpace_of_isNumber (c : Char) (h : isNumber c = true) : isSpace c = false := by
  rw [isNumber_iff] at h
  unfold isSpace
  simp only [Bool.or_eq_false_iff, Bool.and_eq_false_imp, decide_eq_true_eq,
    decide_eq_false_iff_not]
  omega

theorem ne_sign_of_isNumber (c : Char) (h : isNumber c = true) : c ≠ '-' ∧ c ≠ '+' := by
  rw [isNumber_iff] at h
  constructor
  · intro hc; rw [hc] at h; revert h; decide
  · intro hc; rw [hc] at h; revert h; decide

theorem takeWhile_isNumber (ds : List Char) (h : ∀ c ∈ ds, isNumber c = true) :
    ds.takeWhile isNumber = ds := by
  induction ds with
  | nil => rfl
  | cons c cs ih =>
    rw [List.takeWhile_cons_of_pos (h c (List.mem_cons_self c cs)),
      ih (fun d hd => h d (List.mem_cons_of_mem c hd))]

theorem isDecimalText_iff (text : List Char) :
    isDecimalText text = true ↔ (digitsOf text ≠ [] ∧ ∀ c ∈ digitsOf text, isNumber c = true) := by
  unfold isDecimalText
  simp [List.isEmpty_iff]

theorem stoi_decimalText (text : List Char) (h : isDecimalText text = true) :
    stoi text
      = if decimalValue text < INT_MIN ∨ decimalValue text > INT_MAX
        then .error (Exception.out_of_range "stoi") else .ok (decimalValue text) := by
  obtain ⟨hne, hall⟩ := (isDecimalText_iff text).mp h
  cases text with
  | nil => exact absurd rfl hne
  | cons c cs =>
    by_cases hc : c = '-'
    · subst hc
      rw [digitsOf_sign] at hne hall
      have hlen : ¬ cs.length = 0 := by
        intro h0
        exact hne (List.length_eq_zero.mp h0)
      unfold stoi decimalValue magnitude
      rw [digitsOf_sign]
      have hsp : List.dropWhile isSpace ('-' :: cs) = '-' :: cs := by
        rw [List.dropWhile_cons_of_neg]
        decide
      simp only [hsp, List.head?_cons, true_or, if_true, List.tail_cons, decide_True,
        takeWhile_isNumber cs hall, if_neg hlen, hasSign_cons, stoiDigits_eq cs hall]
      simp
    · rw [digitsOf_nosign c cs hc] at hne hall
      have hcn : isNumber c = true := hall c (List.mem_cons_self c cs)
      obtain ⟨_, hplus⟩ := ne_sign_of_isNumber c hcn
      unfold stoi decimalValue magnitude
      rw [digitsOf_nosign c cs hc]
      have hsp : List.dropWhile isSpace (c :: cs) = c :: cs := by
        rw [List.dropWhile_cons_of_neg]
        rw [isSpace_of_isNumber c hcn]
        decide
      have hlen : ¬ (c :: cs).length = 0 := by simp
      simp only [hsp, List.head?_cons, Option.some.injEq, hc, hplus, or_self, if_false,
        decide_False, takeWhile_isNumber (c :: cs) hall, if_neg hlen, hasSign_cons,
        stoiDigits_eq (c :: cs) hall, Bool.false_eq_true]
      simp

/-! ## The driver: the checks of the arguments -/

theorem isNumberStringLoop_of_all (l : List Char) (h : ∀ c ∈ l, isNumber c = true) :
    isNumberStringLoop l = true := by
  induction l with
  | nil => rfl
  | cons c cs ih =>
    rw [isNumberStringLoop, h c (List.mem_cons_self c cs)]
    simpa using ih (fun d hd => h d (List.mem_cons_of_mem c hd))

theorem isNumberString_of_decimalText (text : List Char) (h : isDecimalText text = true) :
    isNumberString text = true := by
  obtain ⟨hne, hall⟩ := (isDecimalText_iff text).mp h
  cases text with
  | nil => exact absurd rfl hne
  | cons c cs =>
    unfold isNumberString
    rw [if_neg (by simp)]
    by_cases hc : c = '-'
    · subst hc
      rw [digitsOf_sign] at hall
      simpa using isNumberStringLoop_of_all cs hall
    · rw [digitsOf_nosign c cs hc] at hall
      simpa [hc] using isNumberStringLoop_of_all (c :: cs) hall

theorem scanArgs_pass (l : List (List Char)) :
    ∀ (i : Nat) (forceUppercase : Bool), (∀ a ∈ l, a ≠ "-h".toList) →
      (∀ (j : Nat) (a : List Char), l[j]? = some a → 3 < i + j → a = "-u".toList) →
      scanArgs l i forceUppercase
        = Sum.inr (forceUppercase || l.any (fun a => decide (a = "-u".toList))) := by
  induction l with
  | nil => intro i f _ _; simp [scanArgs]
  | cons a rest ih =>
    intro i f hh hu
    have hh2 : ∀ b ∈ rest, b ≠ "-h".toList := fun b hb => hh b (List.mem_cons_of_mem a hb)
    have hu2 : ∀ (j : Nat) (b : List Char), rest[j]? = some b → 3 < i + 1 + j
        → b = "-u".toList := by
      intro j b hb hj
      exact hu (j + 1) b (by rw [List.getElem?_cons_succ]; exact hb) (by omega)
    rw [scanArgs]
    by_cases hau : a = "-u".toList
    · rw [if_pos hau, ih (i + 1) true hh2 hu2]
      simp [hau]
    · rw [if_neg hau, if_neg (hh a (List.mem_cons_self a rest))]
      have hi : ¬ i > 3 := by
        intro hi
        exact hau (hu 0 a (by simp) (by omega))
      rw [if_neg hi, ih (i + 1) f hh2 hu2, List.any_cons, decide_eq_false hau, Bool.false_or]

theorem toString_returns (v : Int) (r : Nat) (h2 : 2 ≤ r) (h36 : r ≤ 36) :
    ∃ s, toString v r = .ok s := by
  unfold toString
  rw [if_neg (by omega), if_neg (by omega)]
  obtain ⟨out, hout⟩ := toStringLoop_terminates r h2
    ((if decide (v < 0) = true then wrapLong (-v) else v).toNat + 1)
    (if decide (v < 0) = true then wrapLong (-v) else v) [] (Nat.lt_succ_self _)
  simp only [hout]
  exact ⟨_, rfl⟩

theorem toString_bad_radix (v : Int) (r : Nat) (h : r < 2 ∨ r > 36) :
    ∃ w, toString v r = .error (Exception.invalid_argument w)
      ∧ ∀ u : Int, toString u r = .error (Exception.invalid_argument w) := by
  unfold toString
  by_cases h2 : r < 2
  · simp only [if_pos h2]
    exact ⟨_, rfl, fun _ => rfl⟩
  · simp only [if_neg h2, if_pos (show r > 36 by omega)]
    exact ⟨_, rfl, fun _ => rfl⟩

theorem convert_of_stoi (order : EvalOrder) (number src dst : List Char) (s d : Int)
    (hs : stoi src = .ok s) (hd : stoi dst = .ok d) :
    convert order number src dst
      = match fromString number (toUnsignedShort s) with
        | .error e => .error e
        | .ok v => toString v (toUnsignedShort d) := by
  cases order <;> simp only [convert, hs, hd]

/-! ## The driver as a whole -/

theorem converter_checked (order : EvalOrder) (argv : List (List Char)) (hlen : 4 ≤ argv.length)
    (hh : ∀ a ∈ argv, a ≠ "-h".toList)
    (hu : ∀ (j : Nat) (a : List Char), argv[j]? = some a → 3 < j → a = "-u".toList) :
    converter order argv
      = if (!isNumberString (argv.getD 2 []) || !isNumberString (argv.getD 3 [])) = true
        then ([], 3)
        else catchHandlers (convertAndCase order
          (argv.any (fun a => decide (a = "-u".toList)))
          (argv.getD 1 []) (argv.getD 2 []) (argv.getD 3 [])) := by
  unfold converter
  rw [scanArgs_pass argv 0 false hh (fun j a ha hj => hu j a ha (by omega))]
  simp only [Bool.false_or]
  rw [if_neg (by omega)]

theorem catchHandlers_ne_three (r : Except Exception (List Char)) : (catchHandlers r).2 ≠ 3 := by
  cases r with
  | ok out => simp [catchHandlers]
  | error e => cases e <;> simp [catchHandlers]

theorem fromString_error_kind (text : List Char) (r : Nat) (e : Exception)
    (h : fromString text r = .error e) : ∃ w, e = Exception.invalid_argument w := by
  by_cases hbad : text = [] ∨ ∃ c ∈ digitsOf text, validDigit r c = false
  · obtain ⟨w, hw⟩ := fromString_error r text hbad
    rw [hw] at h
    exact ⟨w, (Except.error.inj h).symm⟩
  · have hne : text ≠ [] := fun h0 => hbad (Or.inl h0)
    have hall : ∀ c ∈ digitsOf text, validDigit r c = true := by
      intro c hc
      by_contra hv
      exact hbad (Or.inr ⟨c, hc, by simpa using hv⟩)
    rw [fromString_ok r text hne hall] at h
    cases h

theorem digitString_facts (src : List Char) (hne : src ≠ [])
    (hall : ∀ c ∈ src, isNumber c = true) :
    isDecimalText src = true ∧ decimalValue src = (positional 10 (src.map digitOf) : Int)
      ∧ src ≠ "-h".toList ∧ src ≠ "-u".toList := by
  cases src with
  | nil => exact absurd rfl hne
  | cons c cs =>
    have hcn : isNumber c = true := hall c (List.mem_cons_self c cs)
    obtain ⟨hminus, _⟩ := ne_sign_of_isNumber c hcn
    have hdig : digitsOf (c :: cs) = c :: cs := digitsOf_nosign c cs hminus
    refine ⟨?_, ?_, ?_, ?_⟩
    · rw [isDecimalText_iff, hdig]
      exact ⟨hne, hall⟩
    · unfold decimalValue magnitude
      rw [hdig, hasSign_cons, decide_eq_false hminus]
      simp
    · intro h
      exact hminus (List.cons.inj h).1
    · intro h
      exact hminus (List.cons.inj h).1

theorem toUnsignedShort_of_range (d : Int) (h0 : 0 ≤ d) (h1 : d ≤ 65535) :
    toUnsignedShort d = d.toNat := by
  unfold toUnsignedShort
  congr 1
  omega

theorem converter_success (order : EvalOrder) (prog number src dst : List Char)
    (us : List (List Char)) (s d : Nat) (v : Int)
    (hus : ∀ u ∈ us, u = "-u".toList) (hprog : prog ≠ "-h".toList)
    (hnum : number ≠ "-h".toList)
    (hsrc : src ≠ [] ∧ (∀ c ∈ src, isNumber c = true) ∧ positional 10 (src.map digitOf) = s)
    (hs : 2 ≤ s ∧ s ≤ 36)
    (hdst : dst ≠ [] ∧ (∀ c ∈ dst, isNumber c = true) ∧ positional 10 (dst.map digitOf) = d)
    (hd : 2 ≤ d ∧ d ≤ 36)
    (hacc : fromString number s = .ok v) :
    ∃ out up, toString v d = .ok out ∧ toUpperString out = .ok up
      ∧ converter order (prog :: number :: src :: dst :: us)
          = (if ∃ a ∈ prog :: number :: src :: dst :: us, a = "-u".toList then up else out, 0) := by
  obtain ⟨out, hout⟩ := toString_returns v d hd.1 hd.2
  refine ⟨out, _, hout, toUpperString_eq out, ?_⟩
  obtain ⟨hs1, hs2, hs3, _⟩ := digitString_facts src hsrc.1 hsrc.2.1
  obtain ⟨hd1, hd2, hd3, _⟩ := digitString_facts dst hdst.1 hdst.2.1
  rw [hsrc.2.2] at hs2
  rw [hdst.2.2] at hd2
  have hstoi_s : stoi src = .ok (s : Int) := by
    rw [stoi_decimalText src hs1, hs2, if_neg (by unfold INT_MIN INT_MAX; omega)]
  have hstoi_d : stoi dst = .ok (d : Int) := by
    rw [stoi_decimalText dst hd1, hd2, if_neg (by unfold INT_MIN INT_MAX; omega)]
  have hus_s : toUnsignedShort (s : Int) = s := by
    rw [toUnsignedShort_of_range _ (by omega) (by omega)]
    rfl
  have hus_d : toUnsignedShort (d : Int) = d := by
    rw [toUnsignedShort_of_range _ (by omega) (by omega)]
    rfl
  have hconv : convert order number src dst = .ok out := by
    rw [convert_of_stoi order number src dst s d hstoi_s hstoi_d, hus_s, hus_d, hacc]
    exact hout
  rw [converter_checked order _ (by simp) (by
    intro a ha
    rcases List.mem_cons.mp ha with rfl | ha
    · exact hprog
    rcases List.mem_cons.mp ha with rfl | ha
    · exact hnum
    rcases List.mem_cons.mp ha with rfl | ha
    · exact hs3
    rcases List.mem_cons.mp ha with rfl | ha
    · exact hd3
    · rw [hus a ha]; decide) (by
    intro j a ha hj
    obtain ⟨k, rfl⟩ : ∃ k, j = k + 4 := ⟨j - 4, by omega⟩
    simp only [List.getElem?_cons_succ] at ha
    exact hus a (List.getElem?_mem ha))]
  simp only [List.getD_cons_succ, List.getD_cons_zero,
    isNumberString_of_decimalText src hs1, isNumberString_of_decimalText dst hd1,
    Bool.not_true, Bool.or_self, Bool.false_eq_true, if_false]
  unfold convertAndCase
  rw [hconv]
  by_cases hex : ∃ a ∈ prog :: number :: src :: dst :: us, a = "-u".toList
  · have hany : (prog :: number :: src :: dst :: us).any (fun a => decide (a = "-u".toList))
        = true := by
      rw [List.any_eq_true]
      obtain ⟨a, ha, hau⟩ := hex
      exact ⟨a, ha, by simpa using hau⟩
    rw [if_pos hex, hany]
    simp only [if_true, toUpperString_eq]
    rfl
  · have hany : (prog :: number :: src :: dst :: us).any (fun a => decide (a = "-u".toList))
        = false := by
      rw [Bool.eq_false_iff]
      intro h
      rw [List.any_eq_true] at h
      obtain ⟨a, ha, hau⟩ := h
      exact hex ⟨a, ha, by simpa using hau⟩
    rw [if_neg hex, hany]
    rfl

theorem converter_invalid_target (order : EvalOrder) (argv : List (List Char))
    (hlen : 4 ≤ argv.length) (hh : ∀ a ∈ argv, a ≠ "-h".toList)
    (hu : ∀ (j : Nat) (a : List Char), argv[j]? = some a → 3 < j → a = "-u".toList)
    (hsrc : isDecimalText (argv.getD 2 []) = true)
    (hdst : isDecimalText (argv.getD 3 []) = true)
    (hsr : INT_MIN ≤ decimalValue (argv.getD 2 []) ∧ decimalValue (argv.getD 2 []) ≤ INT_MAX)
    (hdr : 0 ≤ decimalValue (argv.getD 3 []) ∧ decimalValue (argv.getD 3 []) ≤ 65535)
    (hbad : decimalValue (argv.getD 3 []) < 2 ∨ decimalValue (argv.getD 3 []) > 36) :
    ∃ w : String, converter order argv = (w.toList, 4)
      ∧ (fromString (argv.getD 1 []) (toUnsignedShort (decimalValue (argv.getD 2 [])))
            = .error (Exception.invalid_argument w)
          ∨ ∀ v : Int, toString v (toUnsignedShort (decimalValue (argv.getD 3 [])))
            = .error (Exception.invalid_argument w)) := by
  have hstoi_s : stoi (argv.getD 2 []) = .ok (decimalValue (argv.getD 2 [])) := by
    rw [stoi_decimalText _ hsrc, if_neg (by omega)]
  have hstoi_d : stoi (argv.getD 3 []) = .ok (decimalValue (argv.getD 3 [])) := by
    rw [stoi_decimalText _ hdst, if_neg (by unfold INT_MIN INT_MAX; omega)]
  have hr : toUnsignedShort (decimalValue (argv.getD 3 [])) < 2
      ∨ toUnsignedShort (decimalValue (argv.getD 3 [])) > 36 := by
    rw [toUnsignedShort_of_range _ hdr.1 hdr.2]
    omega
  rw [converter_checked order argv hlen hh hu]
  simp only [isNumberString_of_decimalText _ hsrc, isNumberString_of_decimalText _ hdst,
    Bool.not_true, Bool.or_self, Bool.false_eq_true, if_false]
  unfold convertAndCase
  rw [convert_of_stoi order _ _ _ _ _ hstoi_s hstoi_d]
  cases hf : fromString (argv.getD 1 []) (toUnsignedShort (decimalValue (argv.getD 2 []))) with
  | error e =>
    obtain ⟨w, rfl⟩ := fromString_error_kind _ _ e hf
    exact ⟨w, rfl, Or.inl rfl⟩
  | ok v =>
    obtain ⟨w, hw, hall⟩ := toString_bad_radix v _ hr
    refine ⟨w, ?_, Or.inr hall⟩
    simp only [hw]
    rfl

/-- The run `hdcv 5 10 65538`: the target radix `65538` is converted to the `unsigned short`
`2` at the call of `toString`, and the number is printed in base 2. -/
theorem converter_radix_narrowing :
    converter EvalOrder.sourceParseTarget
        ["hdcv".toList, "5".toList, "10".toList, "65538".toList] = ("101".toList, 0)
      ∧ converter EvalOrder.sourceTargetParse
        ["hdcv".toList, "5".toList, "10".toList, "65538".toList] = ("101".toList, 0)
      ∧ converter EvalOrder.targetSourceParse
        ["hdcv".toList, "5".toList, "10".toList, "65538".toList] = ("101".toList, 0) := by
  decide

/-! ## The claims -/

/-! ### C1: Round trip format-then-parse -/

/-- C1: the code at the minimum `long` in base 2: `toString` returns `"-0"`, which
`fromString` reads back as `0`, not as the minimum. -/
theorem roundtrip_LONG_MIN :
    isLong LONG_MIN ∧ toString LONG_MIN 2 = .ok "-0".toList
      ∧ fromString "-0".toList 2 = .ok 0 ∧ (0 : Int) ≠ LONG_MIN := by
  decide

/-! ### C2: Positional value -/

/-- C2: for every radix and every text made of an optional leading `'-'` followed by valid
digits of that radix, `fromString` returns the positional value of the digits (the sum of
`d_i * radix ^ (n - i)`, most significant digit first) in the wrapping arithmetic of `long`,
negated exactly when the first character is `'-'`. -/
theorem fromString_positional (radix : Nat) (text : List Char) (hne : text ≠ [])
    (hvalid : ∀ c ∈ digitsOf text, validDigit radix c = true) :
    fromString text radix
      = .ok (if hasSign text
          then wrapLong (-(wrapLong (positional radix ((digitsOf text).map digitOf) : Int)))
          else wrapLong (positional radix ((digitsOf text).map digitOf) : Int)) :=
  fromString_ok radix text hne hvalid

/-- Witness of C2 at `"-ff"` in base 16, with the values the specification lists:
`fromString("ff", 16) = 255`, `fromString("-ff", 16) = -255`, `fromString("1010", 2) = 10`. -/
theorem fromString_positional_witness :
    "-ff".toList ≠ [] ∧ (∀ c ∈ digitsOf "-ff".toList, validDigit 16 c = true)
    ∧ fromString "-ff".toList 16 = .ok (-255)
    ∧ fromString "ff".toList 16 = .ok 255
    ∧ fromString "1010".toList 2 = .ok 10 :=
  ⟨by decide, by decide,
    (fromString_positional 16 "-ff".toList (by decide) (by decide)).trans (by decide),
    (fromString_positional 16 "ff".toList (by decide) (by decide)).trans (by decide),
    (fromString_positional 2 "1010".toList (by decide) (by decide)).trans (by decide)⟩

/-! ### C3: Failures of `fromString` -/

/-- C3: `fromString(text, radix)` raises `invalid_argument` if and only if `text` is empty or
some character of `text`, other than a `'-'` at index 0, is not a valid digit under `radix`;
this holds for every radix, those below 2 and above 36 included.  In every other case it
returns a `long`, so overflow never makes it fail.  `fromString("1g", 16)` fails and
`fromString("", r)` fails for every `r`. -/
theorem fromString_raises_iff (text : List Char) (radix : Nat) :
    ((∃ w, fromString text radix = .error (Exception.invalid_argument w)) ↔
      (text = [] ∨ ∃ (i : Nat) (c : Char),
        text[i]? = some c ∧ ¬(i = 0 ∧ c = '-') ∧ validDigit radix c = false))
    ∧ ((∃ w, fromString text radix = .error (Exception.invalid_argument w))
        ∨ ∃ v, fromString text radix = .ok v ∧ isLong v)
    ∧ (∃ w, fromString "1g".toList 16 = .error (Exception.invalid_argument w))
    ∧ (∃ w, fromString "".toList radix = .error (Exception.invalid_argument w)) := by
  rw [bad_char_iff]
  refine ⟨⟨?_, fromString_error radix text⟩, ?_, ⟨_, rfl⟩, ⟨_, rfl⟩⟩
  · rintro ⟨w, hw⟩
    by_contra hbad
    have hne : text ≠ [] := fun h => hbad (Or.inl h)
    have hall : ∀ c ∈ digitsOf text, validDigit radix c = true := by
      intro c hc
      by_contra hv
      exact hbad (Or.inr ⟨c, hc, by simpa using hv⟩)
    rw [fromString_ok radix text hne hall] at hw
    cases hw
  · by_cases hbad : text = [] ∨ ∃ c ∈ digitsOf text, validDigit radix c = false
    · exact Or.inl (fromString_error radix text hbad)
    · have hne : text ≠ [] := fun h => hbad (Or.inl h)
      have hall : ∀ c ∈ digitsOf text, validDigit radix c = true := by
        intro c hc
        by_contra hv
        exact hbad (Or.inr ⟨c, hc, by simpa using hv⟩)
      exact Or.inr (fromString_ok_isLong radix text hne hall)

/-! ### C4: Failures of `toString` -/

/-- C4: `toString(v, r)` raises `invalid_argument` if and only if `r < 2` or `r > 36`, and for
`2 ≤ r ≤ 36` it returns a string, for every value `v`; so `toString(x, 1)` and `toString(x, 37)`
fail. -/
theorem toString_raises_iff (v : Int) (r : Nat) :
    ((∃ w, toString v r = .error (Exception.invalid_argument w)) ↔ (r < 2 ∨ r > 36))
    ∧ ((2 ≤ r ∧ r ≤ 36) → ∃ s, toString v r = .ok s)
    ∧ (∃ w, toString v 1 = .error (Exception.invalid_argument w))
    ∧ (∃ w, toString v 37 = .error (Exception.invalid_argument w)) := by
  have hret : (2 ≤ r ∧ r ≤ 36) → ∃ s, toString v r = .ok s := by
    rintro ⟨h2, h36⟩
    unfold toString
    rw [if_neg (by omega), if_neg (by omega)]
    obtain ⟨out, hout⟩ := toStringLoop_terminates r h2
      ((if decide (v < 0) = true then wrapLong (-v) else v).toNat + 1)
      (if decide (v < 0) = true then wrapLong (-v) else v) [] (Nat.lt_succ_self _)
    simp only [hout]
    exact ⟨_, rfl⟩
  refine ⟨⟨?_, ?_⟩, hret, ⟨_, rfl⟩, ⟨_, rfl⟩⟩
  · rintro ⟨w, hw⟩
    by_contra hr
    obtain ⟨s, hs⟩ := hret (by omega)
    rw [hs] at hw
    cases hw
  · intro hr
    unfold toString
    by_cases h2 : r < 2
    · rw [if_pos h2]; exact ⟨_, rfl⟩
    · rw [if_neg h2, if_pos (by omega)]; exact ⟨_, rfl⟩

/-! ### C5: Canonical numeral -/

/-- C5: for `2 ≤ r ≤ 36` and every `long` value `v` other than the minimum, `toString(v, r)` is
`"-"` (present iff `v < 0`) followed by the canonical base-`r` digits of `|v|`, most
significant first, written with `'0'..'9'` and `'a'..'z'`: the digits are below `r`, their
positional value is `|v|`, and there is no leading zero unless `|v| = 0`, where the digit
string is exactly `"0"`. -/
theorem toString_canonical (v : Int) (r : Nat) (hr : 2 ≤ r ∧ r ≤ 36) (hv : isLong v)
    (hmin : v ≠ LONG_MIN) :
    toString v r
      = .ok ((if v < 0 then ['-'] else []) ++ (canonicalDigits r v.natAbs).map valueToChar)
    ∧ positional r (canonicalDigits r v.natAbs) = v.natAbs
    ∧ (∀ d ∈ canonicalDigits r v.natAbs, d < r)
    ∧ canonicalDigits r v.natAbs ≠ []
    ∧ ((canonicalDigits r v.natAbs).head? = some 0 →
        v.natAbs = 0 ∧ (canonicalDigits r v.natAbs).map valueToChar = ['0']) := by
  refine ⟨toString_ok v r hr.1 hr.2 hv hmin, positional_canonicalDigits r _,
    canonicalDigits_lt r _ hr.1, canonicalDigits_ne_nil r _, ?_⟩
  intro h
  have h0 := canonicalDigits_head r _ h
  refine ⟨h0, ?_⟩
  rw [h0]
  rfl

/-- Witness of C5 at `v = -10`, `r = 2`, with the values the specification lists:
`toString(255, 16) = "ff"`, `toString(-10, 2) = "-1010"`, `toString(0, 8) = "0"`. -/
theorem toString_canonical_witness :
    (2 ≤ 2 ∧ 2 ≤ 36) ∧ isLong (-10) ∧ (-10 : Int) ≠ LONG_MIN
    ∧ toString (-10) 2
        = .ok ((if (-10 : Int) < 0 then ['-'] else [])
            ++ (canonicalDigits 2 (-10 : Int).natAbs).map valueToChar)
    ∧ toString (-10) 2 = .ok "-1010".toList
    ∧ toString 255 16 = .ok "ff".toList
    ∧ toString 0 8 = .ok "0".toList :=
  ⟨by decide, by decide, by decide,
    (toString_canonical (-10) 2 (by decide) (by decide) (by decide)).1,
    by decide, by decide, by decide⟩

/-! ### C6: Round trip parse-then-format -/

/-- C6, counterexample: `"-0"` in base 10 is accepted with value `0`, which fits, and its
normal form with the `'-'` kept is `"-0"`, but `toString(0, 10)` is `"0"`. -/
theorem parse_format_minus_zero :
    (2 ≤ 10 ∧ 10 ≤ 36) ∧ fromString "-0".toList 10 = .ok 0
      ∧ (magnitude 10 "-0".toList : Int) ≤ LONG_MAX
      ∧ normalizeText "-0".toList = "-0".toList
      ∧ toString 0 10 = .ok "0".toList
      ∧ toString 0 10 ≠ .ok (normalizeText "-0".toList) := by
  decide

/-- C6, amended: for `2 ≤ r ≤ 36` and every text that `fromString` accepts under `r` with a
magnitude of at most `LONG_MAX`, `toString(fromString(text, r), r)` is the digit sequence of
the text with its letters lowercased and its leading zeros removed (one digit kept, `"0"` for
the lone `"-"`), preceded by `'-'` exactly when the text starts with `'-'` and its magnitude is
not zero. -/
theorem toString_fromString_normalized (r : Nat) (text : List Char) (v : Int)
    (hr : 2 ≤ r ∧ r ≤ 36) (hacc : fromString text r = .ok v)
    (hfit : (magnitude r text : Int) ≤ LONG_MAX) :
    toString v r
      = .ok ((if hasSign text = true ∧ magnitude r text ≠ 0 then ['-'] else [])
          ++ normalizeDigits (digitsOf text)) :=
  toString_fromString_norm r text v hr.1 hr.2 hacc hfit

/-- Witness of the amended C6 at `"-00fF"` in base 16, which comes back as `"-ff"`. -/
theorem toString_fromString_normalized_witness :
    (2 ≤ 16 ∧ 16 ≤ 36) ∧ fromString "-00fF".toList 16 = .ok (-255)
      ∧ (magnitude 16 "-00fF".toList : Int) ≤ LONG_MAX
      ∧ toString (-255) 16 = .ok "-ff".toList :=
  ⟨by decide, by decide, by decide,
    (toString_fromString_normalized 16 "-00fF".toList (-255) (by decide) (by decide)
      (by decide)).trans (by decide)⟩

/-! ### C7: Characters of the output -/

/-- C7: the code at the minimum `long` in base 10: `toString` returns `"-O"`, with an
uppercase letter that is no digit of base 10. -/
theorem toString_LONG_MIN_uppercase :
    isLong LONG_MIN ∧ toString LONG_MIN 10 = .ok "-O".toList
      ∧ isAlphabet 'O' = true ∧ toUpper 'O' = .ok 'O' ∧ validDigit 10 'O' = false := by
  decide

/-! ### C8: `isNumber` on strings -/

/-- C8: `isNumber(s)` on a string is true if and only if `s` is not empty and, after one
leading `'-'` is skipped when `s` starts with one, every remaining character is in
`'0'..'9'`; `isNumber("")` is false, `isNumber("123")` and `isNumber("-5")` are true,
`isNumber("12a")` is false. -/
theorem isNumberString_iff (s : List Char) :
    (isNumberString s = true ↔
      (s ≠ [] ∧ ∀ c ∈ digitsOf s, ('0').toNat ≤ c.toNat ∧ c.toNat ≤ ('9').toNat))
    ∧ isNumberString "".toList = false
    ∧ isNumberString "123".toList = true
    ∧ isNumberString "-5".toList = true
    ∧ isNumberString "12a".toList = false := by
  refine ⟨?_, rfl, rfl, rfl, rfl⟩
  have hloop : ∀ l : List Char, isNumberStringLoop l = true ↔
      ∀ c ∈ l, ('0').toNat ≤ c.toNat ∧ c.toNat ≤ ('9').toNat := by
    intro l
    induction l with
    | nil => simp [isNumberStringLoop]
    | cons c cs ih =>
      rw [isNumberStringLoop]
      by_cases hc : isNumber c = true
      · simp only [hc, Bool.not_true, Bool.false_eq_true, if_false, ih, List.mem_cons,
          forall_eq_or_imp]
        have : ('0').toNat ≤ c.toNat ∧ c.toNat ≤ ('9').toNat := by
          simpa [isNumber] using hc
        simp only [this, true_and]
      · have hn : ¬ (('0').toNat ≤ c.toNat ∧ c.toNat ≤ ('9').toNat) := by
          simpa [isNumber] using hc
        simp only [Bool.not_eq_true] at hc
        simp only [hc, Bool.not_false, if_true, Bool.false_eq_true, List.mem_cons,
          forall_eq_or_imp, false_iff]
        exact fun h => hn h.1
  cases s with
  | nil => simp [isNumberString]
  | cons c cs =>
    unfold isNumberString digitsOf hasSign
    by_cases hc : c = '-'
    · subst hc
      simp [hloop]
    · simp [hc, hloop]

/-! ### C9: The lone minus sign is not numeric -/

/-- C9: the code on the lone `"-"`: `isNumber("-")` returns true, since the loop starts at
index 1 and meets no character. -/
theorem isNumberString_lone_minus : isNumberString "-".toList = true := rfl

/-! ### C10: The lone minus sign parses to zero -/

/-- C10: a lone minus sign parses to zero: for every radix `r`, `fromString("-", r)` does not
raise and returns `0`. -/
theorem fromString_lone_minus (r : Nat) : fromString "-".toList r = .ok 0 := rfl

/-! ### C11: Case conversion of a character -/

/-- C11: for every character `c`, `toLower(c)` and `toUpper(c)` raise `invalid_argument` if and
only if `c` is no letter, i.e. `isAlphabet(c)` is false, which holds exactly when `c` is
neither in `'A'..'Z'` nor in `'a'..'z'`; for a letter, `toLower(c)` is the lowercase form of
`c` (`c` itself when already lowercase, 32 codes up otherwise) and `toUpper(c)` is the
uppercase form (`c` itself when already uppercase, 32 codes down otherwise). -/
theorem case_conversion_char (c : Char) :
    ((∃ w, toLower c = .error (Exception.invalid_argument w)) ↔ isAlphabet c = false)
    ∧ ((∃ w, toUpper c = .error (Exception.invalid_argument w)) ↔ isAlphabet c = false)
    ∧ (isAlphabet c = false ↔
        ¬((('A').toNat ≤ c.toNat ∧ c.toNat ≤ ('Z').toNat)
          ∨ (('a').toNat ≤ c.toNat ∧ c.toNat ≤ ('z').toNat)))
    ∧ (isAlphabet c = true → toLower c = .ok (lowerChar c) ∧ toUpper c = .ok (upperChar c))
    ∧ ((('a').toNat ≤ c.toNat ∧ c.toNat ≤ ('z').toNat) →
        lowerChar c = c ∧ (upperChar c).toNat + 32 = c.toNat)
    ∧ ((('A').toNat ≤ c.toNat ∧ c.toNat ≤ ('Z').toNat) →
        upperChar c = c ∧ (lowerChar c).toNat = c.toNat + 32) := by
  rw [code_A, code_Z, code_a, code_z]
  refine ⟨?_, ?_, ?_, ?_, ?_, ?_⟩
  · rw [toLower_eq]
    by_cases ha : isAlphabet c = true
    · simp [ha]
    · simp only [ha, if_false, Bool.not_eq_true] at ha ⊢
      simp only [ha, iff_true]
      exact ⟨_, rfl⟩
  · rw [toUpper_eq]
    by_cases ha : isAlphabet c = true
    · simp [ha]
    · simp only [ha, if_false, Bool.not_eq_true] at ha ⊢
      simp only [ha, iff_true]
      exact ⟨_, rfl⟩
  · rw [← isAlphabet_iff]
    simp
  · intro ha
    rw [toLower_eq, toUpper_eq, if_pos ha, if_pos ha]
    exact ⟨rfl, rfl⟩
  · intro hl
    refine ⟨char_eq_of_toNat_eq _ _ ?_, ?_⟩
    · rw [lowerChar_toNat, if_neg (by omega)]
    · rw [upperChar_toNat, if_pos hl]
      omega
  · intro hu
    refine ⟨char_eq_of_toNat_eq _ _ ?_, ?_⟩
    · rw [upperChar_toNat, if_neg (by omega)]
    · rw [lowerChar_toNat, if_pos hu]

/-! ### C12: Case conversion of a string -/

/-- C12: for every string `s`, `toLower(s)` and `toUpper(s)` do not raise, return a string of
the length of `s`, and at every index the result holds the lowercase (resp. uppercase) form
of the character of `s` when that is a letter, and the character itself when it is not. -/
theorem case_conversion_string (s : List Char) :
    ∃ lo up, toLowerString s = .ok lo ∧ toUpperString s = .ok up
      ∧ lo.length = s.length ∧ up.length = s.length
      ∧ ∀ (i : Nat) (c : Char), s[i]? = some c →
          (isAlphabet c = true → lo[i]? = some (lowerChar c) ∧ up[i]? = some (upperChar c))
          ∧ (isAlphabet c = false → lo[i]? = some c ∧ up[i]? = some c) := by
  refine ⟨_, _, toLowerString_eq s, toUpperString_eq s, List.length_map _ _,
    List.length_map _ _, ?_⟩
  intro i c hc
  have hlo : (s.map lowerChar)[i]? = some (lowerChar c) := by
    rw [List.getElem?_map, hc]
    rfl
  have hup : (s.map upperChar)[i]? = some (upperChar c) := by
    rw [List.getElem?_map, hc]
    rfl
  refine ⟨fun _ => ⟨hlo, hup⟩, fun hf => ?_⟩
  rw [hlo, hup, lowerChar_of_not_alphabet c hf, upperChar_of_not_alphabet c hf]
  exact ⟨rfl, rfl⟩

/-! ### C13: Case conversion of a string is idempotent -/

/-- C13: for every string `s`, `toUpper(toUpper(s)) = toUpper(s)` and
`toLower(toLower(s)) = toLower(s)`: both conversions return, and converting their result
again returns that result. -/
theorem case_conversion_idempotent (s : List Char) :
    ∃ lo up, toLowerString s = .ok lo ∧ toUpperString s = .ok up
      ∧ toLowerString lo = .ok lo ∧ toUpperString up = .ok up := by
  refine ⟨_, _, toLowerString_eq s, toUpperString_eq s, ?_, ?_⟩
  · rw [toLowerString_eq, List.map_map]
    refine congrArg Except.ok (List.map_congr_left ?_)
    intro c _
    exact lowerChar_idem c
  · rw [toUpperString_eq, List.map_map]
    refine congrArg Except.ok (List.map_congr_left ?_)
    intro c _
    exact upperChar_idem c

/-! ### C14: End-to-end conversion -/

/-- C14: for every argument vector `[prog, number, src, dst]` followed by zero or more `"-u"`
entries, with no entry `"-h"`, where `src` and `dst` are decimal digit strings denoting
radices `s` and `d` in `[2, 36]` and `fromString` accepts `number` under `s`, `converter`
prints exactly `toString(fromString(number, s), d)` when no entry is `"-u"`, exactly the
`toUpper` of that string when some entry is `"-u"`, and returns `0`, whatever the order of
evaluation of the arguments. -/
theorem converter_end_to_end (order : EvalOrder) (prog number src dst : List Char)
    (us : List (List Char)) (s d : Nat) (v : Int)
    (hus : ∀ u ∈ us, u = "-u".toList) (hprog : prog ≠ "-h".toList)
    (hnum : number ≠ "-h".toList)
    (hsrc : src ≠ [] ∧ (∀ c ∈ src, isNumber c = true) ∧ positional 10 (src.map digitOf) = s)
    (hs : 2 ≤ s ∧ s ≤ 36)
    (hdst : dst ≠ [] ∧ (∀ c ∈ dst, isNumber c = true) ∧ positional 10 (dst.map digitOf) = d)
    (hd : 2 ≤ d ∧ d ≤ 36)
    (hacc : fromString number s = .ok v) :
    ∃ out up, toString v d = .ok out ∧ toUpperString out = .ok up
      ∧ converter order (prog :: number :: src :: dst :: us)
          = (if ∃ a ∈ prog :: number :: src :: dst :: us, a = "-u".toList then up else out, 0) :=
  converter_success order prog number src dst us s d v hus hprog hnum hsrc hs hdst hd hacc

/-- Witness of C14 at `hdcv -10 10 16 -u`, with the runs the specification lists: `ff 16 2`
prints `11111111` and `-10 10 16` prints `-a`, under each order of evaluation. -/
theorem converter_end_to_end_witness :
    (∀ u ∈ ["-u".toList], u = "-u".toList) ∧ "hdcv".toList ≠ "-h".toList
      ∧ "-10".toList ≠ "-h".toList
      ∧ ("10".toList ≠ [] ∧ (∀ c ∈ "10".toList, isNumber c = true)
          ∧ positional 10 ("10".toList.map digitOf) = 10)
      ∧ (2 ≤ 10 ∧ 10 ≤ 36)
      ∧ ("16".toList ≠ [] ∧ (∀ c ∈ "16".toList, isNumber c = true)
          ∧ positional 10 ("16".toList.map digitOf) = 16)
      ∧ (2 ≤ 16 ∧ 16 ≤ 36)
      ∧ fromString "-10".toList 10 = .ok (-10)
      ∧ (∃ out up, toString (-10) 16 = .ok out ∧ toUpperString out = .ok up
          ∧ converter EvalOrder.targetSourceParse
              ("hdcv".toList :: "-10".toList :: "10".toList :: "16".toList :: ["-u".toList])
            = (if ∃ a ∈ "hdcv".toList :: "-10".toList :: "10".toList :: "16".toList
                  :: ["-u".toList], a = "-u".toList then up else out, 0))
      ∧ converter EvalOrder.targetSourceParse
          ["hdcv".toList, "-10".toList, "10".toList, "16".toList, "-u".toList]
          = ("-A".toList, 0)
      ∧ (∀ order : EvalOrder,
          converter order ["hdcv".toList, "ff".toList, "16".toList, "2".toList]
            = ("11111111".toList, 0)
          ∧ converter order ["hdcv".toList, "-10".toList, "10".toList, "16".toList]
            = ("-a".toList, 0)) :=
  ⟨by decide, by decide, by decide, by decide, by decide, by decide, by decide, by decide,
    converter_end_to_end EvalOrder.targetSourceParse "hdcv".toList "-10".toList "10".toList
      "16".toList ["-u".toList] 10 16 (-10) (by decide) (by decide) (by decide) (by decide)
      (by decide) (by decide) (by decide) (by decide),
    by decide, by intro order; cases order <;> decide⟩

/-! ### C15: A bad target radix -/

/-- C15, counterexample: `hdcv 5 10 99999999999` has four entries, no `"-h"`, decimal integer
texts as radix arguments and a target radix above 36, but `std::stoi` throws
`std::out_of_range` on it and `converter` prints its text and returns `5`, under each order
of evaluation. -/
theorem converter_target_out_of_range :
    isDecimalText "10".toList = true ∧ isDecimalText "99999999999".toList = true
      ∧ decimalValue "99999999999".toList > 36
      ∧ converter EvalOrder.sourceParseTarget
          ["hdcv".toList, "5".toList, "10".toList, "99999999999".toList] = ("stoi".toList, 5)
      ∧ converter EvalOrder.sourceTargetParse
          ["hdcv".toList, "5".toList, "10".toList, "99999999999".toList] = ("stoi".toList, 5)
      ∧ converter EvalOrder.targetSourceParse
          ["hdcv".toList, "5".toList, "10".toList, "99999999999".toList] = ("stoi".toList, 5) := by
  decide

/-- C15, amended: for every argument vector with at least 4 entries, no `"-h"` entry, only
`"-u"` entries after index 3 and decimal integer texts as radix arguments, of which `argv[2]`
denotes an `int` and `argv[3]` an integer in `0..65535` that is less than 2 or greater than
36, `converter` returns `4` and prints no conversion result: it prints the text of the
`invalid_argument` that `fromString` raised on `argv[1]`, or else the one `toString` raises
on that radix. -/
theorem converter_bad_target_radix (order : EvalOrder) (argv : List (List Char))
    (hlen : 4 ≤ argv.length) (hh : ∀ a ∈ argv, a ≠ "-h".toList)
    (hu : ∀ (j : Nat) (a : List Char), argv[j]? = some a → 3 < j → a = "-u".toList)
    (hsrc : isDecimalText (argv.getD 2 []) = true)
    (hdst : isDecimalText (argv.getD 3 []) = true)
    (hsr : INT_MIN ≤ decimalValue (argv.getD 2 []) ∧ decimalValue (argv.getD 2 []) ≤ INT_MAX)
    (hdr : 0 ≤ decimalValue (argv.getD 3 []) ∧ decimalValue (argv.getD 3 []) ≤ 65535)
    (hbad : decimalValue (argv.getD 3 []) < 2 ∨ decimalValue (argv.getD 3 []) > 36) :
    ∃ w : String, converter order argv = (w.toList, 4)
      ∧ (fromString (argv.getD 1 []) (toUnsignedShort (decimalValue (argv.getD 2 [])))
            = .error (Exception.invalid_argument w)
          ∨ ∀ v : Int, toString v (toUnsignedShort (decimalValue (argv.getD 3 [])))
            = .error (Exception.invalid_argument w)) :=
  converter_invalid_target order argv hlen hh hu hsrc hdst hsr hdr hbad

/-- Witness of the amended C15 at `hdcv ff 16 37 -u`, which prints the text of `toString` on
a radix above 36 and returns `4`. -/
theorem converter_bad_target_radix_witness :
    4 ≤ ["hdcv".toList, "ff".toList, "16".toList, "37".toList, "-u".toList].length
      ∧ (∀ a ∈ ["hdcv".toList, "ff".toList, "16".toList, "37".toList, "-u".toList],
          a ≠ "-h".toList)
      ∧ isDecimalText "16".toList = true ∧ isDecimalText "37".toList = true
      ∧ (INT_MIN ≤ decimalValue "16".toList ∧ decimalValue "16".toList ≤ INT_MAX)
      ∧ (0 ≤ decimalValue "37".toList ∧ decimalValue "37".toList ≤ 65535)
      ∧ (decimalValue "37".toList < 2 ∨ decimalValue "37".toList > 36)
      ∧ (∃ w : String, converter EvalOrder.sourceParseTarget
            ["hdcv".toList, "ff".toList, "16".toList, "37".toList, "-u".toList] = (w.toList, 4)
          ∧ (fromString "ff".toList (toUnsignedShort (decimalValue "16".toList))
                = .error (Exception.invalid_argument w)
              ∨ ∀ v : Int, toString v (toUnsignedShort (decimalValue "37".toList))
                = .error (Exception.invalid_argument w)))
      ∧ converter EvalOrder.sourceParseTarget
          ["hdcv".toList, "ff".toList, "16".toList, "37".toList, "-u".toList]
          = ("Conversion failed: base can not be higher than 36.".toList, 4) :=
  ⟨by decide, by decide, by decide, by decide, by decide, by decide, by decide,
    converter_bad_target_radix EvalOrder.sourceParseTarget
      ["hdcv".toList, "ff".toList, "16".toList, "37".toList, "-u".toList]
      (by decide) (by decide)
      (by
        intro j a ha hj
        obtain ⟨k, rfl⟩ : ∃ k, j = k + 4 := ⟨j - 4, by omega⟩
        cases k with
        | zero => simpa using ha.symm
        | succ k => simp at ha)
      (by decide) (by decide) (by decide) (by decide) (by decide),
    by decide⟩

/-! ### C16: Exit code 3 -/

/-- C16: for every argument vector with at least 4 entries, no `"-h"` entry and only `"-u"`
entries after index 3, `converter` returns `3` if and only if `isNumber(argv[2])` is false or
`isNumber(argv[3])` is false, and then it prints nothing: no conversion is made. -/
theorem converter_exit_three (order : EvalOrder) (argv : List (List Char))
    (hlen : 4 ≤ argv.length) (hh : ∀ a ∈ argv, a ≠ "-h".toList)
    (hu : ∀ (j : Nat) (a : List Char), argv[j]? = some a → 3 < j → a = "-u".toList) :
    ((converter order argv).2 = 3 ↔
      (isNumberString (argv.getD 2 []) = false ∨ isNumberString (argv.getD 3 []) = false))
    ∧ ((isNumberString (argv.getD 2 []) = false ∨ isNumberString (argv.getD 3 []) = false) →
        converter order argv = ([], 3)) := by
  rw [converter_checked order argv hlen hh hu]
  by_cases hc : (!isNumberString (argv.getD 2 []) || !isNumberString (argv.getD 3 [])) = true
  · have hor : isNumberString (argv.getD 2 []) = false
        ∨ isNumberString (argv.getD 3 []) = false := by
      simpa using hc
    rw [if_pos hc]
    exact ⟨⟨fun _ => hor, fun _ => rfl⟩, fun _ => rfl⟩
  · have hor : ¬(isNumberString (argv.getD 2 []) = false
        ∨ isNumberString (argv.getD 3 []) = false) := by
      simpa using hc
    rw [if_neg hc]
    exact ⟨⟨fun h => absurd h (catchHandlers_ne_three _), fun h => absurd h hor⟩,
      fun h => absurd h hor⟩

/-- Witness of C16 at `hdcv ff 1x 2`, where `1x` is no number: nothing is printed and `3` is
returned. -/
theorem converter_exit_three_witness :
    4 ≤ ["hdcv".toList, "ff".toList, "1x".toList, "2".toList].length
      ∧ (∀ a ∈ ["hdcv".toList, "ff".toList, "1x".toList, "2".toList], a ≠ "-h".toList)
      ∧ (((converter EvalOrder.sourceParseTarget
              ["hdcv".toList, "ff".toList, "1x".toList, "2".toList]).2 = 3 ↔
            (isNumberString "1x".toList = false ∨ isNumberString "2".toList = false))
          ∧ ((isNumberString "1x".toList = false ∨ isNumberString "2".toList = false) →
              converter EvalOrder.sourceParseTarget
                ["hdcv".toList, "ff".toList, "1x".toList, "2".toList] = ([], 3)))
      ∧ converter EvalOrder.sourceParseTarget
          ["hdcv".toList, "ff".toList, "1x".toList, "2".toList] = ([], 3) :=
  ⟨by decide, by decide,
    converter_exit_three EvalOrder.sourceParseTarget
      ["hdcv".toList, "ff".toList, "1x".toList, "2".toList] (by decide) (by decide)
      (by
        intro j a ha hj
        obtain ⟨k, rfl⟩ : ∃ k, j = k + 4 := ⟨j - 4, by omega⟩
        simp at ha),
    by decide⟩

/-! ### C17: `toUpper` on a lowercase letter -/

/-- C17, counterexample: `'a'` is a lowercase letter and `toUpper('a')` is `'A'`, not `'a'`. -/
theorem toUpper_lowercase_changes :
    (('a').toNat ≤ ('a').toNat ∧ ('a').toNat ≤ ('z').toNat)
      ∧ toUpper 'a' = .ok 'A' ∧ toUpper 'a' ≠ .ok 'a' := by
  decide

/-- C17, amended: `toUpper(c)` has no effect if the character `c` is already uppercase: for
every uppercase letter `c`, `toUpper(c) = c`. -/
theorem toUpper_uppercase (c : Char) (h : ('A').toNat ≤ c.toNat ∧ c.toNat ≤ ('Z').toNat) :
    toUpper c = .ok c := by
  unfold toUpper
  rw [if_pos h]

/-- Witness of the amended C17 at `'Q'`. -/
theorem toUpper_uppercase_witness :
    (('A').toNat ≤ ('Q').toNat ∧ ('Q').toNat ≤ ('Z').toNat) ∧ toUpper 'Q' = .ok 'Q' :=
  ⟨by decide, toUpper_uppercase 'Q' (by decide)⟩

/-! ### C18: Parsing does not depend on case -/

/-- C18: for every string `s` and every radix `r`, `toUpper(s)` and `toLower(s)` return and
`fromString` has the same outcome on them as on `s`: the same value, or the same exception. -/
theorem fromString_case_insensitive (s : List Char) (r : Nat) :
    ∃ lo up, toLowerString s = .ok lo ∧ toUpperString s = .ok up
      ∧ fromString up r = fromString s r ∧ fromString lo r = fromString s r :=
  ⟨_, _, toLowerString_eq s, toUpperString_eq s, fromString_upper r s, fromString_lower r s⟩

/-! ### C19: Uppercased output parses back -/

/-- C19: for `2 ≤ r ≤ 36` and every `long` value `v` other than the minimum, `toString(v, r)`
returns, its `toUpper` returns, and `fromString` of that under `r` returns `v`. -/
theorem fromString_toUpper_toString (v : Int) (r : Nat) (hr : 2 ≤ r ∧ r ≤ 36) (hv : isLong v)
    (hmin : v ≠ LONG_MIN) :
    ∃ s up, toString v r = .ok s ∧ toUpperString s = .ok up ∧ fromString up r = .ok v := by
  obtain ⟨s, hs, hback⟩ := fromString_toString v r hr.1 hr.2 hv hmin
  exact ⟨s, _, hs, toUpperString_eq s, (fromString_upper r s).trans hback⟩

/-- Witness of C19 at `v = -255`, `r = 16`: `toString` gives `"-ff"`, `toUpper` gives `"-FF"`,
which parses back to `-255`. -/
theorem fromString_toUpper_toString_witness :
    (2 ≤ 16 ∧ 16 ≤ 36) ∧ isLong (-255) ∧ (-255 : Int) ≠ LONG_MIN
      ∧ (∃ s up, toString (-255) 16 = .ok s ∧ toUpperString s = .ok up
          ∧ fromString up 16 = .ok (-255))
      ∧ toString (-255) 16 = .ok "-ff".toList
      ∧ toUpperString "-ff".toList = .ok "-FF".toList
      ∧ fromString "-FF".toList 16 = .ok (-255) :=
  ⟨by decide, by decide, by decide,
    fromString_toUpper_toString (-255) 16 (by decide) (by decide) (by decide),
    by decide, by decide, by decide⟩

end hdcv
